import Mathlib

/-!
Verification of the CppDeque repository: a doubly linked deque whose node
memory comes from a pluggable allocation strategy.

The embedding models the program state explicitly:
a system heap of malloc-ed blocks, the constructed node objects living in
those blocks, and the per-strategy tracking lists of the reference
("stupid") allocation strategy.  Pointers are natural numbers with 0
playing the role of nullptr; fresh addresses are never reused, so a read
through a dangling pointer is detected as the error branch of the
embedding.  The element type is instantiated at int, as in the demo
driver (deque_t<int>).

Each C++ function of the repository is translated to an executable Lean
function of the same name (FreeList, CopyList, PushBack, PushFront,
PopBack, PopFront, IsEmpty, Clear, ChangeAllocator, the constructors and
assignment operators, and the iterator operations).
-/

set_option linter.unusedVariables false

namespace CppDeque

/-- Decidable equality for Except results, so that concrete runs of the
embedded operations can be checked by `decide`. -/
def exceptDecEq {ε α : Type} [DecidableEq ε] [DecidableEq α] :
    (a b : Except ε α) → Decidable (a = b)
  | .ok a, .ok b =>
    if h : a = b then isTrue (by rw [h])
    else isFalse (by intro hh; cases hh; exact h rfl)
  | .error a, .error b =>
    if h : a = b then isTrue (by rw [h])
    else isFalse (by intro hh; cases hh; exact h rfl)
  | .ok _, .error _ => isFalse (by intro h; cases h)
  | .error _, .ok _ => isFalse (by intro h; cases h)

instance {ε α : Type} [DecidableEq ε] [DecidableEq α] :
    DecidableEq (Except ε α) := exceptDecEq

/-- deque_t::node_t: one doubly-linked-list cell holding an int.  Node
pointers are modelled as Nat with 0 playing the role of nullptr. -/
structure node_t where
  next : Nat
  prev : Nat
  data : Int
deriving DecidableEq

/-- stupid_strategy_t: owns the ordered list of blocks it has handed out
(field allocEls in the source). -/
structure stupid_strategy_t where
  allocEls : List Nat
deriving DecidableEq

/-- The full machine state shared by all strategies and containers:
`raw` records every malloc-ed, not yet freed block with its size;
`blocks` records the constructed node object living at each address;
`nextAddr` generates fresh addresses (all nonzero);
`budget` is how many further system allocations succeed (0 models an
exhausted system allocator, where malloc returns NULL);
`strats` maps a strategy id to the state of that stupid_strategy_t. -/
structure State where
  raw : List (Nat × Nat)
  blocks : List (Nat × node_t)
  nextAddr : Nat
  budget : Nat
  strats : List (Nat × stupid_strategy_t)
deriving DecidableEq

/-- Association-list lookup used for the heap maps (first entry wins). -/
def lookupN {β : Type} : List (Nat × β) → Nat → Option β
  | [], _ => none
  | (a, n) :: rest, p => if a = p then some n else lookupN rest p

/-- Association-list update of the first entry with the given key. -/
def updN {β : Type} : List (Nat × β) → Nat → β → List (Nat × β)
  | [], _, _ => []
  | (a, m) :: rest, p, n => if a = p then (a, n) :: rest else (a, m) :: updN rest p n

/-- Read the state of a strategy by id (a strategy that was never touched
has an empty tracking list). -/
def getStrat : List (Nat × stupid_strategy_t) → Nat → stupid_strategy_t
  | [], _ => ⟨[]⟩
  | (k, v) :: rest, sid => if k = sid then v else getStrat rest sid

/-- Update the state of a strategy by id. -/
def updStrat : List (Nat × stupid_strategy_t) → Nat →
    (stupid_strategy_t → stupid_strategy_t) → List (Nat × stupid_strategy_t)
  | [], sid, f => [(sid, f ⟨[]⟩)]
  | (k, v) :: rest, sid, f =>
    if k = sid then (k, f v) :: rest else (k, v) :: updStrat rest sid f

/-- malloc(numOfBytes): returns NULL when the system allocator is
exhausted, otherwise a fresh nonzero address recorded with its size. -/
def mallocB (s : State) (numOfBytes : Nat) : Nat × State :=
  if s.budget = 0 then (0, s)
  else (s.nextAddr,
        { s with raw := (s.nextAddr, numOfBytes) :: s.raw,
                 nextAddr := s.nextAddr + 1,
                 budget := s.budget - 1 })

/-- free(ptr): returns the block to the system; any object in it is gone.
free(NULL) is a no-op since 0 is never a key. -/
def freeB (s : State) (p : Nat) : State :=
  { s with raw := s.raw.filter (fun b => ¬ b.1 = p),
           blocks := s.blocks.filter (fun b => ¬ b.1 = p) }

/-- stupid_strategy_t::alloc: malloc the bytes and append the result to
allocEls, even when malloc failed and returned NULL. -/
def stupid_alloc (s : State) (sid : Nat) (numOfBytes : Nat) : Nat × State :=
  let r := mallocB s numOfBytes
  (r.1, { r.2 with strats := updStrat r.2.strats sid (fun st => ⟨st.allocEls ++ [r.1]⟩) })

/-- stupid_strategy_t::dealloc: linear scan of allocEls; when the pointer
is found, free it and erase that one entry; otherwise do nothing. -/
def stupid_dealloc (s : State) (sid : Nat) (ptr : Nat) : State :=
  if (getStrat s.strats sid).allocEls.contains ptr then
    let s1 := freeB s ptr
    { s1 with strats := updStrat s1.strats sid (fun st => ⟨st.allocEls.erase ptr⟩) }
  else s

/-- single_allocator_t: holds a shared handle to a strategy.  A moved-from
allocator holds the null handle (strategy = none). -/
structure single_allocator_t where
  strategy : Option Nat
deriving DecidableEq

/-- The error conditions the source can raise, plus the two embedding
artifacts: `ub` marks undefined behaviour in the source (null or dangling
access, placement-new at NULL), and `loopLimit` marks fuel exhaustion of
an embedded loop. -/
inductive Err where
  | emptyList
  | endIterator
  | ub
  | loopLimit
deriving DecidableEq

/-- sizeof(node_t): two pointers and an int with padding on x64. -/
def sizeof_node : Nat := 24

/-- single_allocator_t::alloc: raw bytes from the strategy, then in-place
construction of the node there.  Placement-new at NULL is undefined
behaviour; calling through a null strategy handle likewise. -/
def sa_alloc (s : State) (al : single_allocator_t) (n : node_t) :
    Except Err (Nat × State) :=
  match al.strategy with
  | none => .error .ub
  | some sid =>
    let r := stupid_alloc s sid sizeof_node
    if r.1 = 0 then .error .ub
    else .ok (r.1, { r.2 with blocks := (r.1, n) :: r.2.blocks })

/-- single_allocator_t::dealloc: run the destructor in place (trivial for
int data, so the bytes are untouched), then return the block to the
strategy.  Running the destructor on a non-object is undefined. -/
def sa_dealloc (s : State) (al : single_allocator_t) (p : Nat) :
    Except Err State :=
  match al.strategy with
  | none => .error .ub
  | some sid =>
    match lookupN s.blocks p with
    | some _ => .ok (stupid_dealloc s sid p)
    | none => .error .ub

/-- Dereference a node pointer; fails on NULL and on freed memory. -/
def readNode (s : State) (p : Nat) : Except Err node_t :=
  match lookupN s.blocks p with
  | some n => .ok n
  | none => .error .ub

/-- Store a whole node through a pointer. -/
def writeNode (s : State) (p : Nat) (n : node_t) : Except Err State :=
  match lookupN s.blocks p with
  | some _ => .ok { s with blocks := updN s.blocks p n }
  | none => .error .ub

/-- p->next = v -/
def setNext (s : State) (p v : Nat) : Except Err State := do
  let n ← readNode s p
  writeNode s p { n with next := v }

/-- p->prev = v -/
def setPrev (s : State) (p v : Nat) : Except Err State := do
  let n ← readNode s p
  writeNode s p { n with prev := v }

/-- deque_t: the head pointer (field `start`), the tail pointer
(field `tail`) and the owned typed allocator. -/
structure deque_t where
  start : Nat
  tail : Nat
  allocator : single_allocator_t
deriving DecidableEq

/-- deque_t::deque_t(strategy): both ends null. -/
def deque_new (sid : Nat) : deque_t := ⟨0, 0, ⟨some sid⟩⟩

/-- deque_t::FreeList(begin, allocator): walk the list by `next`,
deallocating each node through the given allocator. -/
def FreeList (s : State) (al : single_allocator_t) (p : Nat) (fuel : Nat) :
    Except Err State :=
  match fuel with
  | 0 => .error .loopLimit
  | fuel + 1 =>
    if p = 0 then .ok s
    else do
      let n ← readNode s p
      let s1 ← sa_dealloc s al p
      FreeList s1 al n.next fuel

/-- The loop shared by deque_t::CopyList and deque_t::ChangeAllocator:
  for (node = ..; node != nullptr; node = node->next, prev = prev->next) {
    tmp = allocator.alloc(node->data, prev, nullptr);
    prev->next = tmp;
  }
Returns the final value of prev. -/
def CopyListLoop (s : State) (al : single_allocator_t) (node prev : Nat)
    (fuel : Nat) : Except Err (State × Nat) :=
  match fuel with
  | 0 => .error .loopLimit
  | fuel + 1 =>
    if node = 0 then .ok (s, prev)
    else do
      let nd ← readNode s node
      let r ← sa_alloc s al { next := 0, prev := prev, data := nd.data }
      let s2 ← setNext r.2 prev r.1
      let nd2 ← readNode s2 node
      let pd2 ← readNode s2 prev
      CopyListLoop s2 al nd2.next pd2.next fuel

/-- deque_t::CopyList(beginToCopy): rebuild a copy of the list under this
deque's allocator; returns the new (start, tail). -/
def CopyList (s : State) (al : single_allocator_t) (beginToCopy : Nat)
    (fuel : Nat) : Except Err (State × Nat × Nat) := do
  if beginToCopy = 0 then .ok (s, 0, 0)
  else do
    let src ← readNode s beginToCopy
    let r ← sa_alloc s al src
    let b ← readNode r.2 beginToCopy
    let lp ← CopyListLoop r.2 al b.next r.1 fuel
    let s3 ← setNext lp.1 lp.2 0
    .ok (s3, r.1, lp.2)

/-- deque_t copy constructor: same strategy as the source. -/
def deque_copy_ctor (s : State) (lhs : deque_t) (fuel : Nat) :
    Except Err (State × deque_t) := do
  let al := lhs.allocator
  if lhs.start = 0 then .ok (s, ⟨0, 0, al⟩)
  else do
    let r ← CopyList s al lhs.start fuel
    .ok (r.1, ⟨r.2.1, r.2.2, al⟩)

/-- deque_t copy constructor with an explicitly supplied strategy. -/
def deque_copy_ctor_strat (s : State) (lhs : deque_t) (sid : Nat)
    (fuel : Nat) : Except Err (State × deque_t) := do
  let al : single_allocator_t := ⟨some sid⟩
  let r ← CopyList s al lhs.start fuel
  .ok (r.1, ⟨r.2.1, r.2.2, al⟩)

/-- deque_t move constructor: returns (destination, moved-from source).
The source's strategy handle is moved out, leaving it null. -/
def deque_move_ctor (rhs : deque_t) : deque_t × deque_t :=
  (⟨rhs.start, rhs.tail, rhs.allocator⟩, ⟨0, 0, ⟨none⟩⟩)

/-- deque_t::operator=(const&): free the current nodes under the current
allocator, adopt the source's allocator, then CopyList from the source.
Under self-assignment `lhs` aliases the destination, so its start field
still names the just-freed first node. -/
def deque_copy_assign (s : State) (dst lhs : deque_t) (fuel : Nat) :
    Except Err (State × deque_t) := do
  let s1 ← FreeList s dst.allocator dst.start fuel
  let al := lhs.allocator
  let r ← CopyList s1 al lhs.start fuel
  .ok (r.1, ⟨r.2.1, r.2.2, al⟩)

/-- deque_t::Copy(lhs, strategy): like copy assignment but rebuilding
under an explicitly supplied strategy. -/
def deque_Copy (s : State) (dst lhs : deque_t) (sid : Nat) (fuel : Nat) :
    Except Err (State × deque_t) := do
  let s1 ← FreeList s dst.allocator dst.start fuel
  let al : single_allocator_t := ⟨some sid⟩
  let r ← CopyList s1 al lhs.start fuel
  .ok (r.1, ⟨r.2.1, r.2.2, al⟩)

/-- deque_t::operator=(&&): free the current nodes, then steal the
source's fields; the source is left empty with a null strategy handle.
Returns (state, new destination, moved-from source). -/
def deque_move_assign (s : State) (dst rhs : deque_t) (fuel : Nat) :
    Except Err (State × deque_t × deque_t) := do
  let s1 ← FreeList s dst.allocator dst.start fuel
  .ok (s1, ⟨rhs.start, rhs.tail, rhs.allocator⟩, ⟨0, 0, ⟨none⟩⟩)

/-- deque_t::PushBack(data): allocate the node with prev = tail,
next = nullptr; link it as the new tail. -/
def PushBack (s : State) (d : deque_t) (data : Int) :
    Except Err (State × deque_t) := do
  let r ← sa_alloc s d.allocator { next := 0, prev := d.tail, data := data }
  let d1 : deque_t := { d with tail := r.1 }
  if d.start = 0 then .ok (r.2, { d1 with start := r.1 })
  else do
    let tn ← readNode r.2 d1.tail
    let s2 ← setNext r.2 tn.prev d1.tail
    .ok (s2, d1)

/-- deque_t::PushFront(data): allocate the node with prev = nullptr,
next = start; link it as the new head. -/
def PushFront (s : State) (d : deque_t) (data : Int) :
    Except Err (State × deque_t) := do
  let r ← sa_alloc s d.allocator { next := d.start, prev := 0, data := data }
  let d1 : deque_t := { d with start := r.1 }
  if d.tail = 0 then .ok (r.2, { d1 with tail := r.1 })
  else do
    let sn ← readNode r.2 d1.start
    let s2 ← setPrev r.2 sn.next d1.start
    .ok (s2, d1)

/-- deque_t::PopBack(): throws "Empty list" on an empty container;
otherwise moves the value out of the tail node, deallocates it and
relinks the end. -/
def PopBack (s : State) (d : deque_t) : Except Err (Int × State × deque_t) := do
  if d.tail = 0 then .error .emptyList
  else do
    let tn ← readNode s d.tail
    let data := tn.data
    let tmp := tn.prev
    let s1 ← sa_dealloc s d.allocator d.tail
    let d1 : deque_t := { d with tail := tmp }
    if tmp = 0 then .ok (data, s1, { d1 with start := 0 })
    else do
      let s2 ← setNext s1 d1.tail 0
      .ok (data, s2, d1)

/-- deque_t::PopFront(): symmetric to PopBack at the head. -/
def PopFront (s : State) (d : deque_t) : Except Err (Int × State × deque_t) := do
  if d.start = 0 then .error .emptyList
  else do
    let sn ← readNode s d.start
    let data := sn.data
    let tmp := sn.next
    let s1 ← sa_dealloc s d.allocator d.start
    let d1 : deque_t := { d with start := tmp }
    if tmp = 0 then .ok (data, s1, { d1 with tail := 0 })
    else do
      let s2 ← setPrev s1 d1.start 0
      .ok (data, s2, d1)

/-- deque_t::IsEmpty(): start is null. -/
def IsEmpty (d : deque_t) : Bool := d.start == 0

/-- deque_t::Clear(): free every node, reset both ends to null. -/
def Clear (s : State) (d : deque_t) (fuel : Nat) :
    Except Err (State × deque_t) := do
  let s1 ← FreeList s d.allocator d.start fuel
  .ok (s1, { d with start := 0, tail := 0 })

/-- deque_t::ChangeAllocator(strategy): translated exactly from the
source, including the saved-but-unused prevBegin/prevEnd locals and the
final FreeList(start, prevAllocator) call on the already rebuilt list. -/
def ChangeAllocator (s : State) (d : deque_t) (sid : Nat) (fuel : Nat) :
    Except Err (State × deque_t) := do
  let prevAllocator := d.allocator
  let prevBegin := d.start
  let prevEnd := d.tail
  let al : single_allocator_t := ⟨some sid⟩
  if d.start = 0 then .ok (s, { d with allocator := al, start := 0, tail := 0 })
  else do
    let n0 ← readNode s d.start
    let r ← sa_alloc s al n0
    let sn ← readNode r.2 r.1
    let lp ← CopyListLoop r.2 al sn.next r.1 fuel
    let s3 ← setNext lp.1 lp.2 0
    let d1 : deque_t := { d with allocator := al, start := r.1, tail := lp.2 }
    let s4 ← FreeList s3 prevAllocator d1.start fuel
    .ok (s4, d1)

/-- deque_t::iterator_t: a cursor on a node; the null node is the
past-the-end position. -/
structure iterator_t where
  node : Nat
deriving DecidableEq

/-- iterator_t::operator*: read access through the cursor. -/
def iter_deref (s : State) (it : iterator_t) : Except Err Int :=
  if it.node = 0 then .error .endIterator
  else do
    let n ← readNode s it.node
    .ok n.data

/-- Assignment through iterator_t::operator* (the reference is mutable). -/
def iter_set (s : State) (it : iterator_t) (v : Int) : Except Err State :=
  if it.node = 0 then .error .endIterator
  else do
    let n ← readNode s it.node
    writeNode s it.node { n with data := v }

/-- iterator_t::operator++ (prefix): advance to node->next. -/
def iter_inc (s : State) (it : iterator_t) : Except Err iterator_t :=
  if it.node = 0 then .error .endIterator
  else do
    let n ← readNode s it.node
    .ok ⟨n.next⟩

/-- iterator_t::operator++(int): advance, returning the previous value
first (the source returns a dangling reference to it, not modelled). -/
def iter_inc_post (s : State) (it : iterator_t) :
    Except Err (iterator_t × iterator_t) :=
  if it.node = 0 then .error .endIterator
  else do
    let n ← readNode s it.node
    .ok (it, ⟨n.next⟩)

/-- deque_t::begin() -/
def deque_begin (d : deque_t) : iterator_t := ⟨d.start⟩

/-- deque_t::end() -/
def deque_end (d : deque_t) : iterator_t := ⟨0⟩

/-- The canonical client loop: collect *it for it from the given iterator
until the end position. -/
def iterTraverse (s : State) (it : iterator_t) (fuel : Nat) :
    Except Err (List Int) :=
  match fuel with
  | 0 => .error .loopLimit
  | fuel + 1 =>
    if it.node = 0 then .ok []
    else do
      let v ← iter_deref s it
      let it2 ← iter_inc s it
      let rest ← iterTraverse s it2 fuel
      .ok (v :: rest)

/-!  Specification layer: the linked-list representation predicate and the
abstraction of a deque to the list of its element values. -/

/-- segB s pr p c q r: starting at pointer p with expected previous node
pr, walking `next` traverses exactly the addresses in c, every node's
prev pointing to its predecessor, ending with exit next-pointer q and
exit prev-pointer r (r is the last address of c, or pr when c is empty). -/
def segB (s : State) : Nat → Nat → List Nat → Nat → Nat → Bool
  | pr, p, [], q, r => p == q && pr == r
  | pr, p, a :: c, q, r =>
    p == a &&
      match lookupN s.blocks a with
      | some n => n.prev == pr && segB s a n.next c q r
      | none => false

/-- The deque represents the chain of addresses c: the walk starts at the
head with null prev and ends at null next with the tail as last node.
This is the invariant of section 3 of the spec. -/
def repB (s : State) (d : deque_t) (c : List Nat) : Bool :=
  segB s 0 d.start c 0 d.tail

/-- Every chain node is currently tracked by the deque's own strategy. -/
def trackedB (s : State) (d : deque_t) (c : List Nat) : Bool :=
  c.all fun a =>
    match d.allocator.strategy with
    | none => false
    | some sid => (getStrat s.strats sid).allocEls.contains a

/-- Well-formed configuration: the chain is represented, tracked by the
deque's allocator, made of nonzero addresses below the allocation
frontier, and duplicate-free; the frontier itself is nonzero so that
fresh addresses are never NULL. -/
def wfB (s : State) (d : deque_t) (c : List Nat) : Bool :=
  repB s d c && trackedB s d c &&
    c.all (fun a => decide (0 < a) && decide (a < s.nextAddr)) &&
    decide c.Nodup && decide (0 < s.nextAddr)

/-- The element value stored at an address (0 when unallocated; only used
under a representation hypothesis). -/
def dataAt (s : State) (a : Nat) : Int :=
  match lookupN s.blocks a with
  | some n => n.data
  | none => 0

/-- The front-to-back element values of a chain. -/
def chainData (s : State) (c : List Nat) : List Int :=
  c.map (dataAt s)

/-- The chain of consecutive fresh addresses handed out by a run of
allocations. -/
def freshChain : Nat → Nat → List Nat
  | _, 0 => []
  | a, n + 1 => a :: freshChain (a + 1) n

/-- Frame relation of an operation whose footprint is the chain c plus
freshly allocated addresses: every block below the old frontier and
outside c is unchanged, the frontier only grows, and tracking of such
blocks by any strategy is undisturbed. -/
def Frames (s s' : State) (c : List Nat) : Prop :=
  (∀ q, q ∉ c → q < s.nextAddr → lookupN s'.blocks q = lookupN s.blocks q) ∧
  s.nextAddr ≤ s'.nextAddr ∧
  (∀ sid q, q ∉ c → q < s.nextAddr →
    ((getStrat s'.strats sid).allocEls.contains q
      = (getStrat s.strats sid).allocEls.contains q))

/-!  Basic lemmas about the heap maps and strategy table. -/

theorem lookupN_updN_ne {β : Type} (l : List (Nat × β)) (p : Nat) (n : β)
    (q : Nat) (h : q ≠ p) : lookupN (updN l p n) q = lookupN l q := by
  induction l with
  | nil => rfl
  | cons b rest ih =>
    obtain ⟨a, m⟩ := b
    by_cases hap : a = p
    · subst hap
      simp only [updN, if_pos rfl, lookupN]
      rw [if_neg (fun hc => h hc.symm), if_neg (fun hc => h hc.symm)]
    · simp only [updN, if_neg hap, lookupN]
      by_cases haq : a = q
      · simp [haq]
      · simp [haq, ih]

theorem lookupN_updN_self {β : Type} (l : List (Nat × β)) (p : Nat) (n m : β)
    (h : lookupN l p = some m) : lookupN (updN l p n) p = some n := by
  induction l with
  | nil => simp [lookupN] at h
  | cons b rest ih =>
    obtain ⟨a, mm⟩ := b
    by_cases hap : a = p
    · subst hap
      simp [updN, lookupN]
    · simp only [lookupN, if_neg hap] at h
      simp [updN, if_neg hap, lookupN, hap, ih h]

theorem lookupN_filter_ne {β : Type} (l : List (Nat × β)) (p q : Nat)
    (h : q ≠ p) :
    lookupN (l.filter fun b => ¬ b.1 = p) q = lookupN l q := by
  induction l with
  | nil => rfl
  | cons b rest ih =>
    obtain ⟨a, m⟩ := b
    simp only [decide_not] at ih
    by_cases hap : a = p
    · subst hap
      have hq : ¬ a = q := fun hc => h hc.symm
      simp [List.filter_cons, lookupN, hq, ih]
    · by_cases haq : a = q
      · subst haq
        simp [List.filter_cons, hap, lookupN]
      · simp [List.filter_cons, hap, lookupN, haq, ih]

theorem lookupN_filter_self {β : Type} (l : List (Nat × β)) (p : Nat) :
    lookupN (l.filter fun b => ¬ b.1 = p) p = none := by
  induction l with
  | nil => rfl
  | cons b rest ih =>
    obtain ⟨a, m⟩ := b
    by_cases hap : a = p
    · subst hap; simpa using ih
    · simpa [hap, lookupN] using ih

theorem getStrat_updStrat_self (l : List (Nat × stupid_strategy_t)) (sid : Nat)
    (f : stupid_strategy_t → stupid_strategy_t) :
    getStrat (updStrat l sid f) sid = f (getStrat l sid) := by
  induction l with
  | nil => simp [updStrat, getStrat]
  | cons b rest ih =>
    obtain ⟨k, v⟩ := b
    by_cases hk : k = sid
    · simp [updStrat, getStrat, hk]
    · simp [updStrat, getStrat, hk, ih]

theorem getStrat_updStrat_ne (l : List (Nat × stupid_strategy_t))
    (sid sid' : Nat) (f : stupid_strategy_t → stupid_strategy_t)
    (h : sid' ≠ sid) :
    getStrat (updStrat l sid f) sid' = getStrat l sid' := by
  have hns : ¬ sid = sid' := fun hc => h hc.symm
  induction l with
  | nil =>
    simp only [updStrat, getStrat]
    rw [if_neg hns]
  | cons b rest ih =>
    obtain ⟨k, v⟩ := b
    by_cases hk : k = sid
    · subst hk
      simp only [updStrat, if_pos rfl, getStrat]
      rw [if_neg hns, if_neg hns]
    · simp [updStrat, getStrat, hk, ih]

theorem contains_iff_mem (l : List Nat) (a : Nat) :
    l.contains a = true ↔ a ∈ l := List.elem_iff

/-!  Structural lemmas about the segment predicate. -/

theorem segB_nil_iff {s : State} {pr p q r : Nat} :
    segB s pr p [] q r = true ↔ p = q ∧ pr = r := by
  simp [segB]

theorem segB_cons_iff {s : State} {pr p q r a : Nat} {c : List Nat} :
    segB s pr p (a :: c) q r = true ↔
      p = a ∧ ∃ n, lookupN s.blocks a = some n ∧ n.prev = pr ∧
        segB s a n.next c q r = true := by
  simp only [segB, Bool.and_eq_true, beq_iff_eq]
  cases hl : lookupN s.blocks a with
  | none => simp
  | some n =>
    constructor
    · rintro ⟨hp, hrest⟩
      simp only [Bool.and_eq_true, beq_iff_eq] at hrest
      exact ⟨hp, n, rfl, hrest.1, hrest.2⟩
    · rintro ⟨hp, m, hm, hprev, hseg⟩
      cases hm
      simp [hp, hprev, hseg]

theorem segB_frame {s₁ s₂ : State} {pr p q r : Nat} {c : List Nat}
    (h : ∀ a ∈ c, lookupN s₂.blocks a = lookupN s₁.blocks a) :
    segB s₂ pr p c q r = segB s₁ pr p c q r := by
  induction c generalizing pr p with
  | nil => rfl
  | cons a rest ih =>
    simp only [segB]
    rw [h a (by simp)]
    cases hl : lookupN s₁.blocks a with
    | none => rfl
    | some n =>
      have hrec := @ih a n.next (fun x hx => h x (List.mem_cons_of_mem _ hx))
      simp [hrec]

theorem segB_append_of {s : State} {pr p pm rm q r : Nat} {c₁ c₂ : List Nat}
    (h₁ : segB s pr p c₁ pm rm = true) (h₂ : segB s rm pm c₂ q r = true) :
    segB s pr p (c₁ ++ c₂) q r = true := by
  induction c₁ generalizing pr p with
  | nil =>
    rw [segB_nil_iff] at h₁
    obtain ⟨hp, hpr⟩ := h₁
    subst hp; subst hpr
    simpa using h₂
  | cons a rest ih =>
    rw [segB_cons_iff] at h₁
    obtain ⟨hp, n, hn, hprev, hseg⟩ := h₁
    rw [List.cons_append, segB_cons_iff]
    exact ⟨hp, n, hn, hprev, ih hseg⟩

theorem segB_append_split {s : State} {pr p q r : Nat} {c₁ c₂ : List Nat}
    (h : segB s pr p (c₁ ++ c₂) q r = true) :
    ∃ pm rm, segB s pr p c₁ pm rm = true ∧ segB s rm pm c₂ q r = true := by
  induction c₁ generalizing pr p with
  | nil =>
    exact ⟨p, pr, by simp [segB_nil_iff], by simpa using h⟩
  | cons a rest ih =>
    rw [List.cons_append, segB_cons_iff] at h
    obtain ⟨hp, n, hn, hprev, hseg⟩ := h
    obtain ⟨pm, rm, hs₁, hs₂⟩ := ih hseg
    exact ⟨pm, rm, by rw [segB_cons_iff]; exact ⟨hp, n, hn, hprev, hs₁⟩, hs₂⟩

theorem segB_mem_lookup {s : State} {pr p q r a : Nat} {c : List Nat}
    (h : segB s pr p c q r = true) (ha : a ∈ c) :
    ∃ n, lookupN s.blocks a = some n := by
  induction c generalizing pr p with
  | nil => cases ha
  | cons b rest ih =>
    rw [segB_cons_iff] at h
    obtain ⟨hp, n, hn, hprev, hseg⟩ := h
    rcases List.mem_cons.mp ha with hab | ha'
    · subst hab; exact ⟨n, hn⟩
    · exact ih hseg ha'

theorem segB_exit_mem {s : State} {pr p q r : Nat} {c : List Nat}
    (h : segB s pr p c q r = true) (hne : c ≠ []) : r ∈ c := by
  induction c generalizing pr p with
  | nil => exact absurd rfl hne
  | cons a rest ih =>
    rw [segB_cons_iff] at h
    obtain ⟨hp, n, hn, hprev, hseg⟩ := h
    cases rest with
    | nil =>
      rw [segB_nil_iff] at hseg
      simp [hseg.2]
    | cons b rest' =>
      exact List.mem_cons_of_mem _ (ih hseg (by simp))

theorem segB_last_next {s : State} {pr p q r : Nat} {c : List Nat}
    (h : segB s pr p c q r = true) (hne : c ≠ []) :
    ∃ n, lookupN s.blocks r = some n ∧ n.next = q := by
  induction c generalizing pr p with
  | nil => exact absurd rfl hne
  | cons a rest ih =>
    rw [segB_cons_iff] at h
    obtain ⟨hp, n, hn, hprev, hseg⟩ := h
    cases rest with
    | nil =>
      rw [segB_nil_iff] at hseg
      obtain ⟨hq, hr⟩ := hseg
      subst hr
      exact ⟨n, hn, hq⟩
    | cons b rest' => exact ih hseg (by simp)

/-- Rewriting the `next` field of the last node of a segment rewrites the
segment's exit pointer; all other links are untouched. -/
theorem segB_upd_last_next {s : State} {pr p q r v : Nat} {c : List Nat}
    {n : node_t} (h : segB s pr p c q r = true) (hne : c ≠ [])
    (hnd : c.Nodup) (hn : lookupN s.blocks r = some n) :
    segB { s with blocks := updN s.blocks r { n with next := v } } pr p c v r
      = true := by
  induction c generalizing pr p with
  | nil => exact absurd rfl hne
  | cons a rest ih =>
    rw [segB_cons_iff] at h
    obtain ⟨hp, m, hm, hprev, hseg⟩ := h
    cases rest with
    | nil =>
      rw [segB_nil_iff] at hseg
      obtain ⟨hq, hr⟩ := hseg
      subst hr
      have hmn : m = n := by rw [hm] at hn; exact Option.some.inj hn
      subst hmn
      rw [segB_cons_iff]
      refine ⟨hp, { m with next := v }, ?_, hprev, ?_⟩
      · exact lookupN_updN_self _ _ _ _ hm
      · rw [segB_nil_iff]; exact ⟨rfl, rfl⟩
    | cons b rest' =>
      have hrmem : r ∈ b :: rest' := segB_exit_mem hseg (by simp)
      have har : a ≠ r := by
        intro hc; subst hc
        exact (List.nodup_cons.mp hnd).1 hrmem
      rw [segB_cons_iff]
      refine ⟨hp, m, ?_, hprev, ?_⟩
      · show lookupN (updN s.blocks r { n with next := v }) a = some m
        rw [lookupN_updN_ne _ _ _ _ har, hm]
      · exact ih hseg (by simp) (List.nodup_cons.mp hnd).2

/-!  Unfolding lemmas for the well-formedness predicate. -/

theorem wfB_iff {s : State} {d : deque_t} {c : List Nat} :
    wfB s d c = true ↔
      segB s 0 d.start c 0 d.tail = true ∧ trackedB s d c = true ∧
      (∀ a ∈ c, 0 < a ∧ a < s.nextAddr) ∧ c.Nodup ∧ 0 < s.nextAddr := by
  simp only [wfB, repB, Bool.and_eq_true, List.all_eq_true, decide_eq_true_eq,
    and_assoc]

theorem trackedB_some {s : State} {d : deque_t} {c : List Nat} {sid : Nat}
    (h : d.allocator.strategy = some sid) :
    trackedB s d c = true ↔ ∀ a ∈ c, a ∈ (getStrat s.strats sid).allocEls := by
  simp only [trackedB, List.all_eq_true, h]
  constructor
  · intro hall a ha
    exact (contains_iff_mem _ _).mp (hall a ha)
  · intro hall a ha
    exact (contains_iff_mem _ _).mpr (hall a ha)

theorem trackedB_strategy_some {s : State} {d : deque_t} {c : List Nat}
    (h : trackedB s d c = true) (hne : c ≠ []) :
    ∃ sid, d.allocator.strategy = some sid := by
  cases c with
  | nil => exact absurd rfl hne
  | cons a rest =>
    simp only [trackedB, List.all_eq_true] at h
    have := h a (by simp)
    cases hst : d.allocator.strategy with
    | none => rw [hst] at this; simp at this
    | some sid => exact ⟨sid, rfl⟩

/-!  Step equations: how each primitive evaluates under its precondition. -/

theorem contains_erase_ne (l : List Nat) (a q : Nat) (h : q ≠ a) :
    (l.erase a).contains q = l.contains q := by
  have hiff : q ∈ l.erase a ↔ q ∈ l := List.mem_erase_of_ne h
  by_cases hm : q ∈ l
  · rw [(contains_iff_mem _ _).mpr hm, (contains_iff_mem _ _).mpr (hiff.mpr hm)]
  · have e1 : (l.erase a).contains q = false :=
      Bool.eq_false_iff.mpr (fun hc => hm (hiff.mp ((contains_iff_mem _ _).mp hc)))
    have e2 : l.contains q = false :=
      Bool.eq_false_iff.mpr (fun hc => hm ((contains_iff_mem _ _).mp hc))
    rw [e1, e2]

theorem readNode_ok {s : State} {p : Nat} {n : node_t}
    (h : lookupN s.blocks p = some n) : readNode s p = .ok n := by
  simp [readNode, h]

theorem setNext_ok {s : State} {p v : Nat} {n : node_t}
    (h : lookupN s.blocks p = some n) :
    setNext s p v = .ok { s with blocks := updN s.blocks p { n with next := v } } := by
  unfold setNext
  rw [readNode_ok h]
  show writeNode s p { n with next := v } = _
  simp only [writeNode, h]

theorem setPrev_ok {s : State} {p v : Nat} {n : node_t}
    (h : lookupN s.blocks p = some n) :
    setPrev s p v = .ok { s with blocks := updN s.blocks p { n with prev := v } } := by
  unfold setPrev
  rw [readNode_ok h]
  show writeNode s p { n with prev := v } = _
  simp only [writeNode, h]

/-- The state after a successful typed allocation of node n under
strategy sid. -/
def allocResult (s : State) (sid : Nat) (n : node_t) : State :=
  { s with raw := (s.nextAddr, sizeof_node) :: s.raw,
           blocks := (s.nextAddr, n) :: s.blocks,
           nextAddr := s.nextAddr + 1,
           budget := s.budget - 1,
           strats := updStrat s.strats sid
             (fun st => ⟨st.allocEls ++ [s.nextAddr]⟩) }

theorem sa_alloc_ok {s : State} {sid : Nat} {n : node_t}
    (hb : s.budget ≠ 0) (hz : s.nextAddr ≠ 0) :
    sa_alloc s ⟨some sid⟩ n = .ok (s.nextAddr, allocResult s sid n) := by
  simp [sa_alloc, stupid_alloc, mallocB, hb, hz, allocResult]

/-- The state after a successful typed deallocation of the tracked block
p under strategy sid. -/
def deallocResult (s : State) (sid : Nat) (p : Nat) : State :=
  { s with raw := s.raw.filter (fun b => ¬ b.1 = p),
           blocks := s.blocks.filter (fun b => ¬ b.1 = p),
           strats := updStrat s.strats sid
             (fun st => ⟨st.allocEls.erase p⟩) }

theorem sa_dealloc_ok {s : State} {sid : Nat} {p : Nat} {n : node_t}
    (hl : lookupN s.blocks p = some n)
    (ht : (getStrat s.strats sid).allocEls.contains p = true) :
    sa_dealloc s ⟨some sid⟩ p = .ok (deallocResult s sid p) := by
  simp only [sa_dealloc, hl, stupid_dealloc, ht, if_true, freeB, deallocResult]

/-!  Full specification of FreeList on a represented chain. -/

theorem FreeList_spec {sid : Nat} {c : List Nat} :
    ∀ {s : State} {p pr r : Nat} {fuel : Nat},
    segB s pr p c 0 r = true →
    (∀ a ∈ c, (getStrat s.strats sid).allocEls.contains a = true) →
    (∀ a ∈ c, 0 < a) → c.Nodup → c.length < fuel →
    ∃ s', FreeList s ⟨some sid⟩ p fuel = .ok s'
      ∧ (∀ q, q ∈ c → lookupN s'.blocks q = none)
      ∧ (∀ q, q ∉ c → lookupN s'.blocks q = lookupN s.blocks q)
      ∧ (∀ q, q ∈ c → lookupN s'.raw q = none)
      ∧ (∀ q, q ∉ c → lookupN s'.raw q = lookupN s.raw q)
      ∧ s'.nextAddr = s.nextAddr ∧ s'.budget = s.budget
      ∧ (∀ sid', sid' ≠ sid → getStrat s'.strats sid' = getStrat s.strats sid')
      ∧ (∀ q, q ∉ c → (getStrat s'.strats sid).allocEls.contains q
            = (getStrat s.strats sid).allocEls.contains q) := by
  induction c with
  | nil =>
    intro s p pr r fuel hseg htr hpos hnd hfuel
    obtain ⟨hp, hpr⟩ := segB_nil_iff.mp hseg
    subst hp
    cases fuel with
    | zero => simp at hfuel
    | succ fuel =>
      refine ⟨s, ?_, ?_⟩
      · simp [FreeList]
      · simp
  | cons a rest ih =>
    intro s p pr r fuel hseg htr hpos hnd hfuel
    obtain ⟨hp, n, hn, hprev, hseg'⟩ := segB_cons_iff.mp hseg
    subst hp
    have ha0 : 0 < p := hpos p (by simp)
    have hand := List.nodup_cons.mp hnd
    cases fuel with
    | zero => simp at hfuel
    | succ fuel =>
      have hta : (getStrat s.strats sid).allocEls.contains p = true :=
        htr p (by simp)
      -- state after deallocating the head node
      set s1 := deallocResult s sid p with hs1
      have hs1blocks : ∀ q, q ≠ p → lookupN s1.blocks q = lookupN s.blocks q :=
        fun q hq => lookupN_filter_ne _ _ _ hq
      have hs1blocksa : lookupN s1.blocks p = none := lookupN_filter_self _ _
      have hs1raw : ∀ q, q ≠ p → lookupN s1.raw q = lookupN s.raw q :=
        fun q hq => lookupN_filter_ne _ _ _ hq
      have hs1rawa : lookupN s1.raw p = none := lookupN_filter_self _ _
      have hs1strats : getStrat s1.strats sid
          = ⟨(getStrat s.strats sid).allocEls.erase p⟩ :=
        getStrat_updStrat_self _ _ _
      have hs1strats' : ∀ sid', sid' ≠ sid →
          getStrat s1.strats sid' = getStrat s.strats sid' :=
        fun sid' h' => getStrat_updStrat_ne _ _ _ _ h'
      have hseg1 : segB s1 p n.next rest 0 r = true := by
        rw [segB_frame (fun x hx => hs1blocks x
          (fun hc => hand.1 (by rw [← hc]; exact hx)))]
        exact hseg'
      have htr1 : ∀ x ∈ rest, (getStrat s1.strats sid).allocEls.contains x = true := by
        intro x hx
        rw [hs1strats]
        show ((getStrat s.strats sid).allocEls.erase p).contains x = true
        rw [contains_erase_ne _ _ _ (fun hc => hand.1 (by rw [← hc]; exact hx))]
        exact htr x (by simp [hx])
      obtain ⟨s', hrun, hin, hout, hinr, houtr, hna, hbud, hstr, hstr2⟩ :=
        ih hseg1 htr1 (fun x hx => hpos x (by simp [hx])) hand.2
          (Nat.lt_of_succ_lt_succ hfuel)
      refine ⟨s', ?_, ?_, ?_, ?_, ?_, ?_, ?_, ?_, ?_⟩
      · show FreeList s ⟨some sid⟩ p (fuel + 1) = .ok s'
        rw [FreeList]
        rw [if_neg (Nat.pos_iff_ne_zero.mp ha0)]
        rw [readNode_ok hn]
        show (do
          let s2 ← sa_dealloc s ⟨some sid⟩ p
          FreeList s2 ⟨some sid⟩ n.next fuel) = .ok s'
        rw [sa_dealloc_ok hn hta]
        simpa using hrun
      · intro q hq
        rcases List.mem_cons.mp hq with hqa | hq'
        · subst hqa
          rw [hout q (fun hc => hand.1 hc)]
          exact hs1blocksa
        · exact hin q hq'
      · intro q hq
        rw [hout q (fun hc => hq (List.mem_cons_of_mem _ hc))]
        exact hs1blocks q (fun hc => hq (hc ▸ List.mem_cons_self _ _))
      · intro q hq
        rcases List.mem_cons.mp hq with hqa | hq'
        · subst hqa
          rw [houtr q (fun hc => hand.1 hc)]
          exact hs1rawa
        · exact hinr q hq'
      · intro q hq
        rw [houtr q (fun hc => hq (List.mem_cons_of_mem _ hc))]
        exact hs1raw q (fun hc => hq (hc ▸ List.mem_cons_self _ _))
      · rw [hna, hs1]
        rfl
      · rw [hbud, hs1]
        rfl
      · intro sid' h'
        rw [hstr sid' h', hs1strats' sid' h']
      · intro q hq
        rw [hstr2 q (fun hc => hq (List.mem_cons_of_mem _ hc)), hs1strats]
        show ((getStrat s.strats sid).allocEls.erase p).contains q
          = (getStrat s.strats sid).allocEls.contains q
        exact contains_erase_ne _ _ _ (fun hc => hq (hc ▸ List.mem_cons_self _ _))

/-!  Small auxiliary lemmas. -/

theorem lookupN_cons_self {β : Type} (l : List (Nat × β)) (p : Nat) (n : β) :
    lookupN ((p, n) :: l) p = some n := by
  simp [lookupN]

theorem lookupN_cons_ne {β : Type} (l : List (Nat × β)) (p q : Nat) (n : β)
    (h : q ≠ p) : lookupN ((p, n) :: l) q = lookupN l q := by
  simp only [lookupN]
  rw [if_neg (fun hc => h hc.symm)]

theorem contains_append_self (l : List Nat) (p : Nat) :
    (l ++ [p]).contains p = true := by
  rw [contains_iff_mem]
  simp

theorem contains_append_ne (l : List Nat) (p q : Nat) (h : q ≠ p) :
    (l ++ [p]).contains q = l.contains q := by
  by_cases hm : q ∈ l
  · rw [(contains_iff_mem _ _).mpr hm, (contains_iff_mem _ _).mpr (by simp [hm])]
  · have e1 : (l ++ [p]).contains q = false :=
      Bool.eq_false_iff.mpr (fun hc => by
        rcases List.mem_append.mp ((contains_iff_mem _ _).mp hc) with h1 | h1
        · exact hm h1
        · simp at h1; exact h h1)
    have e2 : l.contains q = false :=
      Bool.eq_false_iff.mpr (fun hc => hm ((contains_iff_mem _ _).mp hc))
    rw [e1, e2]

theorem segB_start_pos {s : State} {pr p q r : Nat} {c : List Nat}
    (h : segB s pr p c q r = true) (hpos : ∀ a ∈ c, 0 < a) (hne : c ≠ []) :
    0 < p := by
  cases c with
  | nil => exact absurd rfl hne
  | cons a rest =>
    obtain ⟨hp, _⟩ := segB_cons_iff.mp h
    rw [hp]
    exact hpos a (by simp)

theorem chainData_congr {s s' : State} {c : List Nat}
    (h : ∀ a ∈ c, lookupN s'.blocks a = lookupN s.blocks a) :
    chainData s' c = chainData s c := by
  induction c with
  | nil => rfl
  | cons a rest ih =>
    simp only [chainData, List.map_cons] at *
    have hd : dataAt s' a = dataAt s a := by simp [dataAt, h a (by simp)]
    rw [hd, ih (fun x hx => h x (by simp [hx]))]

/-- Frames-preservation: a well-formed configuration whose chain is
disjoint from an operation's footprint stays well formed with the same
element values. -/
theorem wf_mono {s s' : State} {x : deque_t} {cx c : List Nat}
    (hwf : wfB s x cx = true) (hfr : Frames s s' c)
    (hdis : ∀ a ∈ cx, a ∉ c) :
    wfB s' x cx = true ∧ chainData s' cx = chainData s cx := by
  obtain ⟨hrep, htr, hbnd, hnd, hpos⟩ := wfB_iff.mp hwf
  obtain ⟨hfb, hfn, hfs⟩ := hfr
  have hlk : ∀ a ∈ cx, lookupN s'.blocks a = lookupN s.blocks a :=
    fun a ha => hfb a (hdis a ha) (hbnd a ha).2
  refine ⟨wfB_iff.mpr ⟨?_, ?_, ?_, hnd, lt_of_lt_of_le hpos hfn⟩,
    chainData_congr hlk⟩
  · rw [segB_frame hlk]
    exact hrep
  · cases cx with
    | nil => simp [trackedB]
    | cons a rest =>
      obtain ⟨sid, hsid⟩ := trackedB_strategy_some htr (by simp)
      rw [trackedB_some hsid] at htr ⊢
      intro q hq
      have := hfs sid q (hdis q hq) (hbnd q hq).2
      rw [← contains_iff_mem, this, contains_iff_mem]
      exact htr q hq
  · intro a ha
    have := hbnd a ha
    exact ⟨this.1, lt_of_lt_of_le this.2 hfn⟩

theorem chainData_congr_data {s s' : State} {c : List Nat}
    (h : ∀ a ∈ c, dataAt s' a = dataAt s a) :
    chainData s' c = chainData s c := List.map_congr_left h

/-!  Specification of PushBack and PushFront. -/

theorem PushBack_spec {s : State} {d : deque_t} {c : List Nat} {v : Int}
    {sid : Nat} (hwf : wfB s d c = true) (hsid : d.allocator = ⟨some sid⟩)
    (hb : s.budget ≠ 0) :
    ∃ s', PushBack s d v
        = .ok (s', ⟨if c = [] then s.nextAddr else d.start, s.nextAddr,
                    d.allocator⟩)
      ∧ wfB s' ⟨if c = [] then s.nextAddr else d.start, s.nextAddr,
          d.allocator⟩ (c ++ [s.nextAddr]) = true
      ∧ chainData s' (c ++ [s.nextAddr]) = chainData s c ++ [v]
      ∧ Frames s s' c
      ∧ s'.nextAddr = s.nextAddr + 1 ∧ s'.budget = s.budget - 1 := by
  obtain ⟨hrep, htr, hbnd, hnd, hpos⟩ := wfB_iff.mp hwf
  have hz : s.nextAddr ≠ 0 := Nat.pos_iff_ne_zero.mp hpos
  have hs1blocks : (allocResult s sid ⟨0, d.tail, v⟩).blocks
      = (s.nextAddr, ⟨0, d.tail, v⟩) :: s.blocks := rfl
  have hs1stra : getStrat (allocResult s sid ⟨0, d.tail, v⟩).strats sid
      = ⟨(getStrat s.strats sid).allocEls ++ [s.nextAddr]⟩ :=
    getStrat_updStrat_self _ _ _
  have hs1strb : ∀ sid', sid' ≠ sid →
      getStrat (allocResult s sid ⟨0, d.tail, v⟩).strats sid'
        = getStrat s.strats sid' :=
    fun sid' h' => getStrat_updStrat_ne _ _ _ _ h'
  cases c with
  | nil =>
    obtain ⟨hstart, htail⟩ := segB_nil_iff.mp hrep
    refine ⟨allocResult s sid ⟨0, d.tail, v⟩, ?_, ?_, ?_, ?_, ?_, ?_⟩
    · rw [PushBack, hsid, sa_alloc_ok hb hz]
      show (if d.start = 0 then _ else _) = _
      rw [if_pos hstart]
      simp
    · rw [wfB_iff]
      refine ⟨?_, ?_, ?_, ?_, ?_⟩
      · show segB _ 0 (if ([] : List Nat) = [] then s.nextAddr else d.start)
          [s.nextAddr] 0 s.nextAddr = true
        rw [if_pos rfl, segB_cons_iff]
        refine ⟨rfl, ⟨0, d.tail, v⟩, ?_, ?_, ?_⟩
        · rw [hs1blocks]; exact lookupN_cons_self _ _ _
        · show d.tail = 0; omega
        · rw [segB_nil_iff]; exact ⟨rfl, rfl⟩
      · rw [trackedB_some (by rw [hsid])]
        intro q hq
        simp only [List.nil_append, List.mem_cons, List.not_mem_nil, or_false]
          at hq
        subst hq
        rw [hs1stra]
        simp
      · intro a ha
        simp only [List.nil_append, List.mem_cons, List.not_mem_nil, or_false]
          at ha
        subst ha
        constructor
        · omega
        · show s.nextAddr < (allocResult s sid ⟨0, d.tail, v⟩).nextAddr
          show s.nextAddr < s.nextAddr + 1
          omega
      · simp
      · show 0 < s.nextAddr + 1; omega
    · show chainData _ [s.nextAddr] = chainData s [] ++ [v]
      simp only [chainData, List.map, List.map_nil, List.nil_append]
      rw [dataAt, hs1blocks, lookupN_cons_self]
    · refine ⟨?_, ?_, ?_⟩
      · intro q hq hlt
        rw [hs1blocks]
        exact lookupN_cons_ne _ _ _ _ (by omega)
      · show s.nextAddr ≤ s.nextAddr + 1; omega
      · intro sid' q hq hlt
        by_cases hss : sid' = sid
        · subst hss
          rw [hs1stra]
          exact contains_append_ne _ _ _ (by omega)
        · rw [hs1strb sid' hss]
    · rfl
    · rfl
  | cons a rest =>
    have hstart : d.start = a := (segB_cons_iff.mp hrep).1
    have hstartpos : 0 < d.start := by
      rw [hstart]; exact (hbnd a (by simp)).1
    have htailmem : d.tail ∈ a :: rest := segB_exit_mem hrep (by simp)
    obtain ⟨m, hm, hmnext⟩ := segB_last_next hrep (by simp)
    have htailP : d.tail ≠ s.nextAddr := by
      have := (hbnd _ htailmem).2; omega
    have hPnotin : s.nextAddr ∉ a :: rest := by
      intro hc
      have := (hbnd _ hc).2; omega
    have hm1 : lookupN (allocResult s sid ⟨0, d.tail, v⟩).blocks d.tail
        = some m := by
      rw [hs1blocks, lookupN_cons_ne _ _ _ _ htailP, hm]
    have hframe : ∀ x ∈ a :: rest,
        lookupN (allocResult s sid ⟨0, d.tail, v⟩).blocks x
          = lookupN s.blocks x := by
      intro x hx
      rw [hs1blocks]
      exact lookupN_cons_ne _ _ _ _ (fun hc => hPnotin (by rw [← hc]; exact hx))
    have hseg1 : segB (allocResult s sid ⟨0, d.tail, v⟩) 0 d.start
        (a :: rest) 0 d.tail = true := by
      rw [segB_frame hframe]
      exact hrep
    set s1 := allocResult s sid ⟨0, d.tail, v⟩ with hs1def
    set s2 : State :=
      { s1 with blocks := updN s1.blocks d.tail { m with next := s.nextAddr } }
      with hs2def
    have hs2P : lookupN s2.blocks s.nextAddr = some ⟨0, d.tail, v⟩ := by
      show lookupN (updN s1.blocks d.tail _) s.nextAddr = _
      rw [lookupN_updN_ne _ _ _ _ (fun hc => htailP hc.symm), hs1blocks]
      exact lookupN_cons_self _ _ _
    have hs2tail : lookupN s2.blocks d.tail = some { m with next := s.nextAddr } := by
      show lookupN (updN s1.blocks d.tail _) d.tail = _
      exact lookupN_updN_self _ _ _ _ hm1
    have hs2other : ∀ q, q ≠ d.tail → q ≠ s.nextAddr →
        lookupN s2.blocks q = lookupN s.blocks q := by
      intro q h1 h2
      show lookupN (updN s1.blocks d.tail _) q = _
      rw [lookupN_updN_ne _ _ _ _ h1, hs1blocks,
        lookupN_cons_ne _ _ _ _ h2]
    refine ⟨s2, ?_, ?_, ?_, ?_, ?_, ?_⟩
    · rw [PushBack, hsid, sa_alloc_ok hb hz]
      show (if d.start = 0 then _ else _) = _
      rw [if_neg (Nat.pos_iff_ne_zero.mp hstartpos)]
      show (do
        let tn ← readNode s1 s.nextAddr
        let s2' ← setNext s1 tn.prev s.nextAddr
        Except.ok (s2', (⟨d.start, s.nextAddr, ⟨some sid⟩⟩ : deque_t)))
          = _
      rw [readNode_ok (show lookupN s1.blocks s.nextAddr = some ⟨0, d.tail, v⟩
        from by rw [hs1blocks]; exact lookupN_cons_self _ _ _)]
      show (do
        let s2' ← setNext s1 d.tail s.nextAddr
        Except.ok (s2', (⟨d.start, s.nextAddr, ⟨some sid⟩⟩ : deque_t))) = _
      rw [setNext_ok hm1]
      rfl
    · rw [wfB_iff]
      refine ⟨?_, ?_, ?_, ?_, ?_⟩
      · show segB s2 0 (if a :: rest = [] then s.nextAddr else d.start)
          (a :: rest ++ [s.nextAddr]) 0 s.nextAddr = true
        rw [if_neg (by simp)]
        have hc1 : segB s2 0 d.start (a :: rest) s.nextAddr d.tail = true :=
          segB_upd_last_next hseg1 (by simp) hnd hm1
        have hc2 : segB s2 d.tail s.nextAddr [s.nextAddr] 0 s.nextAddr = true := by
          rw [segB_cons_iff]
          exact ⟨rfl, ⟨0, d.tail, v⟩, hs2P, rfl, by rw [segB_nil_iff]; exact ⟨rfl, rfl⟩⟩
        exact segB_append_of hc1 hc2
      · rw [trackedB_some (by rw [hsid])]
        intro q hq
        have hstr : getStrat s2.strats sid
            = ⟨(getStrat s.strats sid).allocEls ++ [s.nextAddr]⟩ := hs1stra
        rw [← contains_iff_mem, hstr]
        rcases List.mem_append.mp hq with hq1 | hq1
        · rw [contains_append_ne _ _ _
            (fun hc => hPnotin (by rw [← hc]; exact hq1))]
          rw [contains_iff_mem]
          exact (trackedB_some (by rw [hsid])).mp htr q hq1
        · simp only [List.mem_singleton] at hq1
          subst hq1
          exact contains_append_self _ _
      · intro x hx
        rcases List.mem_append.mp hx with hx1 | hx1
        · have := hbnd x hx1
          constructor
          · exact this.1
          · show x < s.nextAddr + 1; omega
        · simp only [List.mem_singleton] at hx1
          subst hx1
          constructor
          · omega
          · show s.nextAddr < s.nextAddr + 1; omega
      · exact List.Nodup.append hnd (List.nodup_singleton _)
          (fun x hx1 hx2 => by
            simp only [List.mem_singleton] at hx2
            exact hPnotin (hx2 ▸ hx1))
      · show 0 < s.nextAddr + 1; omega
    · rw [chainData, List.map_append]
      show _ = chainData s (a :: rest) ++ [v]
      have h1 : List.map (dataAt s2) (a :: rest) = chainData s (a :: rest) := by
        apply chainData_congr_data
        intro x hx
        by_cases hxt : x = d.tail
        · subst hxt
          rw [dataAt, dataAt, hs2tail, hm]
        · rw [dataAt, dataAt, hs2other x hxt (fun hc => hPnotin (hc ▸ hx))]
      have h2 : List.map (dataAt s2) [s.nextAddr] = [v] := by
        simp only [List.map, List.map_nil]
        rw [dataAt, hs2P]
      rw [h1, h2]
    · refine ⟨?_, ?_, ?_⟩
      · intro q hq hlt
        exact hs2other q (fun hc => hq (hc ▸ htailmem)) (by omega)
      · show s.nextAddr ≤ s.nextAddr + 1; omega
      · intro sid' q hq hlt
        show (getStrat s1.strats sid').allocEls.contains q = _
        by_cases hss : sid' = sid
        · subst hss
          rw [hs1stra]
          exact contains_append_ne _ _ _ (by omega)
        · rw [hs1strb sid' hss]
    · show s.nextAddr + 1 = s.nextAddr + 1; rfl
    · show s.budget - 1 = s.budget - 1; rfl

theorem PushFront_spec {s : State} {d : deque_t} {c : List Nat} {v : Int}
    {sid : Nat} (hwf : wfB s d c = true) (hsid : d.allocator = ⟨some sid⟩)
    (hb : s.budget ≠ 0) :
    ∃ s', PushFront s d v
        = .ok (s', ⟨s.nextAddr, if c = [] then s.nextAddr else d.tail,
                    d.allocator⟩)
      ∧ wfB s' ⟨s.nextAddr, if c = [] then s.nextAddr else d.tail,
          d.allocator⟩ (s.nextAddr :: c) = true
      ∧ chainData s' (s.nextAddr :: c) = v :: chainData s c
      ∧ Frames s s' c
      ∧ s'.nextAddr = s.nextAddr + 1 ∧ s'.budget = s.budget - 1 := by
  obtain ⟨hrep, htr, hbnd, hnd, hpos⟩ := wfB_iff.mp hwf
  have hz : s.nextAddr ≠ 0 := Nat.pos_iff_ne_zero.mp hpos
  have hs1blocks : (allocResult s sid ⟨d.start, 0, v⟩).blocks
      = (s.nextAddr, ⟨d.start, 0, v⟩) :: s.blocks := rfl
  have hs1stra : getStrat (allocResult s sid ⟨d.start, 0, v⟩).strats sid
      = ⟨(getStrat s.strats sid).allocEls ++ [s.nextAddr]⟩ :=
    getStrat_updStrat_self _ _ _
  have hs1strb : ∀ sid', sid' ≠ sid →
      getStrat (allocResult s sid ⟨d.start, 0, v⟩).strats sid'
        = getStrat s.strats sid' :=
    fun sid' h' => getStrat_updStrat_ne _ _ _ _ h'
  cases c with
  | nil =>
    obtain ⟨hstart, htail⟩ := segB_nil_iff.mp hrep
    refine ⟨allocResult s sid ⟨d.start, 0, v⟩, ?_, ?_, ?_, ?_, ?_, ?_⟩
    · rw [PushFront, hsid, sa_alloc_ok hb hz]
      show (if d.tail = 0 then _ else _) = _
      rw [if_pos htail.symm]
      rfl
    · rw [wfB_iff]
      refine ⟨?_, ?_, ?_, ?_, ?_⟩
      · show segB _ 0 s.nextAddr [s.nextAddr] 0
          (if ([] : List Nat) = [] then s.nextAddr else d.tail) = true
        rw [if_pos rfl, segB_cons_iff]
        refine ⟨rfl, ⟨d.start, 0, v⟩, ?_, rfl, ?_⟩
        · rw [hs1blocks]; exact lookupN_cons_self _ _ _
        · show segB _ s.nextAddr d.start [] 0 s.nextAddr = true
          rw [segB_nil_iff]
          exact ⟨hstart, rfl⟩
      · rw [trackedB_some (by rw [hsid])]
        intro q hq
        simp only [List.mem_singleton] at hq
        subst hq
        rw [hs1stra]
        simp
      · intro x hx
        simp only [List.mem_singleton] at hx
        subst hx
        constructor
        · omega
        · show s.nextAddr < s.nextAddr + 1; omega
      · simp
      · show 0 < s.nextAddr + 1; omega
    · show chainData _ [s.nextAddr] = v :: chainData s []
      simp only [chainData, List.map, List.map_nil]
      rw [dataAt, hs1blocks, lookupN_cons_self]
    · refine ⟨?_, ?_, ?_⟩
      · intro q hq hlt
        rw [hs1blocks]
        exact lookupN_cons_ne _ _ _ _ (by omega)
      · show s.nextAddr ≤ s.nextAddr + 1; omega
      · intro sid' q hq hlt
        by_cases hss : sid' = sid
        · subst hss
          rw [hs1stra]
          exact contains_append_ne _ _ _ (by omega)
        · rw [hs1strb sid' hss]
    · rfl
    · rfl
  | cons a rest =>
    have hstarta : d.start = a := (segB_cons_iff.mp hrep).1
    obtain ⟨hstartn0, n, hn, hnprev, hsegrest⟩ := segB_cons_iff.mp hrep
    have htailmem : d.tail ∈ a :: rest := segB_exit_mem hrep (by simp)
    have htailpos : 0 < d.tail := (hbnd _ htailmem).1
    have hapos : 0 < a := (hbnd a (by simp)).1
    have haP : a ≠ s.nextAddr := by
      have := (hbnd a (by simp)).2; omega
    have hPnotin : s.nextAddr ∉ a :: rest := by
      intro hc
      have := (hbnd _ hc).2; omega
    have hnotrest : a ∉ rest := (List.nodup_cons.mp hnd).1
    have hn1 : lookupN (allocResult s sid ⟨d.start, 0, v⟩).blocks a
        = some n := by
      rw [hs1blocks, lookupN_cons_ne _ _ _ _ haP, hn]
    set s1 := allocResult s sid ⟨d.start, 0, v⟩ with hs1def
    set s2 : State :=
      { s1 with blocks := updN s1.blocks a { n with prev := s.nextAddr } }
      with hs2def
    have hs2P : lookupN s2.blocks s.nextAddr = some ⟨d.start, 0, v⟩ := by
      show lookupN (updN s1.blocks a _) s.nextAddr = _
      rw [lookupN_updN_ne _ _ _ _ (fun hc => haP hc.symm), hs1blocks]
      exact lookupN_cons_self _ _ _
    have hs2a : lookupN s2.blocks a = some { n with prev := s.nextAddr } := by
      show lookupN (updN s1.blocks a _) a = _
      exact lookupN_updN_self _ _ _ _ hn1
    have hs2other : ∀ q, q ≠ a → q ≠ s.nextAddr →
        lookupN s2.blocks q = lookupN s.blocks q := by
      intro q h1 h2
      show lookupN (updN s1.blocks a _) q = _
      rw [lookupN_updN_ne _ _ _ _ h1, hs1blocks,
        lookupN_cons_ne _ _ _ _ h2]
    refine ⟨s2, ?_, ?_, ?_, ?_, ?_, ?_⟩
    · rw [PushFront, hsid, sa_alloc_ok hb hz]
      show (if d.tail = 0 then _ else _) = _
      rw [if_neg (Nat.pos_iff_ne_zero.mp htailpos)]
      show (do
        let sn ← readNode s1 s.nextAddr
        let s2' ← setPrev s1 sn.next s.nextAddr
        Except.ok (s2', (⟨s.nextAddr, d.tail, ⟨some sid⟩⟩ : deque_t)))
          = _
      rw [readNode_ok (show lookupN s1.blocks s.nextAddr = some ⟨d.start, 0, v⟩
        from by rw [hs1blocks]; exact lookupN_cons_self _ _ _)]
      show (do
        let s2' ← setPrev s1 d.start s.nextAddr
        Except.ok (s2', (⟨s.nextAddr, d.tail, ⟨some sid⟩⟩ : deque_t))) = _
      rw [hstarta, setPrev_ok hn1]
      rfl
    · rw [wfB_iff]
      refine ⟨?_, ?_, ?_, ?_, ?_⟩
      · show segB s2 0 s.nextAddr (s.nextAddr :: a :: rest) 0
          (if a :: rest = [] then s.nextAddr else d.tail) = true
        rw [if_neg (by simp), segB_cons_iff]
        refine ⟨rfl, ⟨d.start, 0, v⟩, hs2P, rfl, ?_⟩
        show segB s2 s.nextAddr d.start (a :: rest) 0 d.tail = true
        rw [hstarta, segB_cons_iff]
        refine ⟨rfl, { n with prev := s.nextAddr }, hs2a, rfl, ?_⟩
        show segB s2 a n.next rest 0 d.tail = true
        rw [segB_frame (fun x hx => hs2other x
          (fun hc => hnotrest (by rw [← hc]; exact hx))
          (fun hc => hPnotin (by rw [← hc]; exact List.mem_cons_of_mem _ hx)))]
        exact hsegrest
      · rw [trackedB_some (by rw [hsid])]
        intro q hq
        have hstr : getStrat s2.strats sid
            = ⟨(getStrat s.strats sid).allocEls ++ [s.nextAddr]⟩ := hs1stra
        rw [← contains_iff_mem, hstr]
        rcases List.mem_cons.mp hq with hq1 | hq1
        · subst hq1
          exact contains_append_self _ _
        · rw [contains_append_ne _ _ _
            (fun hc => hPnotin (by rw [← hc]; exact hq1))]
          rw [contains_iff_mem]
          exact (trackedB_some (by rw [hsid])).mp htr q hq1
      · intro x hx
        rcases List.mem_cons.mp hx with hx1 | hx1
        · subst hx1
          constructor
          · omega
          · show s.nextAddr < s.nextAddr + 1; omega
        · have := hbnd x hx1
          constructor
          · exact this.1
          · show x < s.nextAddr + 1; omega
      · rw [List.nodup_cons]
        exact ⟨hPnotin, hnd⟩
      · show 0 < s.nextAddr + 1; omega
    · show chainData s2 (s.nextAddr :: a :: rest) = v :: chainData s (a :: rest)
      simp only [chainData, List.map]
      have h0 : dataAt s2 s.nextAddr = v := by rw [dataAt, hs2P]
      have h1 : dataAt s2 a = dataAt s a := by
        rw [dataAt, dataAt, hs2a, hn]
      have h2 : List.map (dataAt s2) rest = List.map (dataAt s) rest := by
        apply List.map_congr_left
        intro x hx
        rw [dataAt, dataAt, hs2other x
          (fun hc => hnotrest (by rw [← hc]; exact hx))
          (fun hc => hPnotin (by rw [← hc]; exact List.mem_cons_of_mem _ hx))]
      rw [h0, h1, h2]
    · refine ⟨?_, ?_, ?_⟩
      · intro q hq hlt
        exact hs2other q (fun hc => hq (by rw [hc]; simp)) (by omega)
      · show s.nextAddr ≤ s.nextAddr + 1; omega
      · intro sid' q hq hlt
        show (getStrat s1.strats sid').allocEls.contains q = _
        by_cases hss : sid' = sid
        · subst hss
          rw [hs1stra]
          exact contains_append_ne _ _ _ (by omega)
        · rw [hs1strb sid' hss]
    · show s.nextAddr + 1 = s.nextAddr + 1; rfl
    · show s.budget - 1 = s.budget - 1; rfl

/-- The exit prev-pointer of a segment is its last address (or the entry
prev-pointer when the segment is empty). -/
theorem segB_exit_lastD {s : State} {pr p q r : Nat} {c : List Nat}
    (h : segB s pr p c q r = true) : r = c.getLastD pr := by
  induction c generalizing pr p with
  | nil =>
    obtain ⟨_, hpr⟩ := segB_nil_iff.mp h
    simpa using hpr.symm
  | cons a rest ih =>
    obtain ⟨hp, n, hn, hprev, hseg⟩ := segB_cons_iff.mp h
    rw [List.getLastD_cons]
    exact ih hseg

/-!  Specification of PopBack and PopFront. -/

theorem PopBack_spec {s : State} {d : deque_t} {c : List Nat} {t : Nat}
    {sid : Nat} (hwf : wfB s d (c ++ [t]) = true)
    (hsid : d.allocator = ⟨some sid⟩) :
    ∃ s', PopBack s d
        = .ok (dataAt s t, s',
            ⟨if c = [] then 0 else d.start, c.getLastD 0, d.allocator⟩)
      ∧ wfB s' ⟨if c = [] then 0 else d.start, c.getLastD 0, d.allocator⟩ c
          = true
      ∧ chainData s' c = chainData s c
      ∧ lookupN s'.blocks t = none ∧ lookupN s'.raw t = none
      ∧ Frames s s' (c ++ [t])
      ∧ s'.nextAddr = s.nextAddr ∧ s'.budget = s.budget := by
  obtain ⟨hrep, htr, hbnd, hnd, hpos⟩ := wfB_iff.mp hwf
  obtain ⟨pm, prm, hseg1, hseg2⟩ := segB_append_split hrep
  obtain ⟨hpm, m, hm, hmprev, hmrest⟩ := segB_cons_iff.mp hseg2
  obtain ⟨hmnext, htail⟩ := segB_nil_iff.mp hmrest
  subst hpm
  subst htail
  -- here the tail node is t = d.tail with stored node m
  have htpos : 0 < d.tail := (hbnd d.tail (by simp)).1
  have htnotc : d.tail ∉ c := by
    intro hc
    have := (List.nodup_append.mp hnd).2.2
    exact this hc (by simp)
  have hta : (getStrat s.strats sid).allocEls.contains d.tail = true := by
    rw [contains_iff_mem]
    exact (trackedB_some (by rw [hsid])).mp htr d.tail (by simp)
  have hprm : prm = c.getLastD 0 := segB_exit_lastD hseg1
  have hdata : dataAt s d.tail = m.data := by rw [dataAt, hm]
  set s1 := deallocResult s sid d.tail with hs1def
  have hs1blocks : ∀ q, q ≠ d.tail → lookupN s1.blocks q = lookupN s.blocks q :=
    fun q hq => lookupN_filter_ne _ _ _ hq
  have hs1blockst : lookupN s1.blocks d.tail = none := lookupN_filter_self _ _
  have hs1raw : ∀ q, q ≠ d.tail → lookupN s1.raw q = lookupN s.raw q :=
    fun q hq => lookupN_filter_ne _ _ _ hq
  have hs1rawt : lookupN s1.raw d.tail = none := lookupN_filter_self _ _
  have hs1stra : getStrat s1.strats sid
      = ⟨(getStrat s.strats sid).allocEls.erase d.tail⟩ :=
    getStrat_updStrat_self _ _ _
  have hs1strb : ∀ sid', sid' ≠ sid →
      getStrat s1.strats sid' = getStrat s.strats sid' :=
    fun sid' h' => getStrat_updStrat_ne _ _ _ _ h'
  have hfr1 : ∀ x ∈ c, lookupN s1.blocks x = lookupN s.blocks x :=
    fun x hx => hs1blocks x (fun hc => htnotc (hc ▸ hx))
  have hseg1' : segB s1 0 d.start c d.tail prm = true := by
    rw [segB_frame hfr1]; exact hseg1
  cases c with
  | nil =>
    obtain ⟨hstart, hprm0⟩ := segB_nil_iff.mp hseg1
    refine ⟨s1, ?_, ?_, ?_, hs1blockst, hs1rawt, ?_, rfl, rfl⟩
    · rw [PopBack]
      rw [if_neg (Nat.pos_iff_ne_zero.mp htpos)]
      rw [readNode_ok hm]
      show (do
        let s2 ← sa_dealloc s d.allocator d.tail
        let d1 : deque_t := { d with tail := m.prev }
        if m.prev = 0 then Except.ok (m.data, s2, { d1 with start := 0 })
        else do
          let s3 ← setNext s2 d1.tail 0
          Except.ok (m.data, s3, d1)) = _
      rw [hsid, sa_dealloc_ok hm hta]
      show (if m.prev = 0 then _ else _) = _
      rw [if_pos (by rw [hmprev]; omega)]
      rw [hdata, hmprev, ← hprm0]
      rfl
    · rw [wfB_iff]
      refine ⟨?_, by simp [trackedB], by simp, by simp, hpos⟩
      show segB s1 0 0 [] 0 (List.getLastD [] 0) = true
      rw [segB_nil_iff]
      exact ⟨rfl, rfl⟩
    · rfl
    · refine ⟨?_, le_refl _, ?_⟩
      · intro q hq hlt
        exact hs1blocks q (fun hc => hq (by rw [hc]; simp))
      · intro sid' q hq hlt
        by_cases hss : sid' = sid
        · subst hss
          rw [hs1stra]
          exact contains_erase_ne _ _ _ (fun hc => hq (by rw [hc]; simp))
        · rw [hs1strb sid' hss]
  | cons b crest =>
    have hprmmem : prm ∈ b :: crest := segB_exit_mem hseg1 (by simp)
    have hprmpos : 0 < prm := (hbnd prm (List.mem_append.mpr (Or.inl hprmmem))).1
    have hprmt : prm ≠ d.tail := fun hc => htnotc (hc ▸ hprmmem)
    obtain ⟨mp, hmp, hmpnext⟩ := segB_last_next hseg1 (by simp)
    have hmp1 : lookupN s1.blocks prm = some mp := by
      rw [hs1blocks prm hprmt, hmp]
    have hndc : (b :: crest).Nodup := (List.nodup_append.mp hnd).1
    set s2 : State :=
      { s1 with blocks := updN s1.blocks prm { mp with next := 0 } }
      with hs2def
    have hs2prm : lookupN s2.blocks prm = some { mp with next := 0 } := by
      show lookupN (updN s1.blocks prm _) prm = _
      exact lookupN_updN_self _ _ _ _ hmp1
    have hs2other : ∀ q, q ≠ prm →
        lookupN s2.blocks q = lookupN s1.blocks q := by
      intro q h1
      show lookupN (updN s1.blocks prm _) q = _
      rw [lookupN_updN_ne _ _ _ _ h1]
    refine ⟨s2, ?_, ?_, ?_, ?_, hs1rawt, ?_, rfl, rfl⟩
    · rw [PopBack]
      rw [if_neg (Nat.pos_iff_ne_zero.mp htpos)]
      rw [readNode_ok hm]
      show (do
        let s2' ← sa_dealloc s d.allocator d.tail
        let d1 : deque_t := { d with tail := m.prev }
        if m.prev = 0 then Except.ok (m.data, s2', { d1 with start := 0 })
        else do
          let s3 ← setNext s2' d1.tail 0
          Except.ok (m.data, s3, d1)) = _
      rw [hsid, sa_dealloc_ok hm hta]
      show (if m.prev = 0 then _ else _) = _
      rw [if_neg (by rw [hmprev]; exact Nat.pos_iff_ne_zero.mp hprmpos)]
      show (do
        let s3 ← setNext s1 m.prev 0
        Except.ok (m.data, s3,
          (⟨d.start, m.prev, ⟨some sid⟩⟩ : deque_t))) = _
      rw [hmprev, setNext_ok hmp1]
      rw [hdata, ← hprm]
      rw [if_neg (show ¬ (b :: crest = []) by simp)]
      rfl
    · rw [wfB_iff]
      have hsegc : segB s2 0 d.start (b :: crest) 0 prm = true :=
        segB_upd_last_next hseg1' (by simp) hndc hmp1
      refine ⟨?_, ?_, ?_, hndc, hpos⟩
      · show segB s2 0 d.start (b :: crest) 0
          (List.getLastD (b :: crest) 0) = true
        rw [← hprm]
        exact hsegc
      · rw [trackedB_some (by rw [hsid])]
        intro q hq
        have : getStrat s2.strats sid
            = ⟨(getStrat s.strats sid).allocEls.erase d.tail⟩ := hs1stra
        rw [← contains_iff_mem, this,
          contains_erase_ne _ _ _
            (fun hc => htnotc (by rw [← hc]; exact hq)),
          contains_iff_mem]
        exact (trackedB_some (by rw [hsid])).mp htr q
          (List.mem_append.mpr (Or.inl hq))
      · intro x hx
        exact hbnd x (List.mem_append.mpr (Or.inl hx))
    · apply chainData_congr_data
      intro x hx
      by_cases hxp : x = prm
      · subst hxp
        rw [dataAt, dataAt, hs2prm, hmp]
      · rw [dataAt, dataAt, hs2other x hxp,
          hs1blocks x (fun hc => htnotc (by rw [← hc]; exact hx))]
    · rw [hs2other d.tail hprmt.symm]
      exact hs1blockst
    · refine ⟨?_, le_refl _, ?_⟩
      · intro q hq hlt
        rw [hs2other q
          (fun hc => hq (by rw [hc]; exact List.mem_append.mpr (Or.inl hprmmem)))]
        exact hs1blocks q (fun hc => hq (by rw [hc]; simp))
      · intro sid' q hq hlt
        show (getStrat s1.strats sid').allocEls.contains q = _
        by_cases hss : sid' = sid
        · subst hss
          rw [hs1stra]
          exact contains_erase_ne _ _ _ (fun hc => hq (by rw [hc]; simp))
        · rw [hs1strb sid' hss]

theorem PopFront_spec {s : State} {d : deque_t} {a : Nat} {rest : List Nat}
    {sid : Nat} (hwf : wfB s d (a :: rest) = true)
    (hsid : d.allocator = ⟨some sid⟩) :
    ∃ s', PopFront s d
        = .ok (dataAt s a, s',
            ⟨rest.headD 0, if rest = [] then 0 else d.tail, d.allocator⟩)
      ∧ wfB s' ⟨rest.headD 0, if rest = [] then 0 else d.tail, d.allocator⟩
          rest = true
      ∧ chainData s' rest = chainData s rest
      ∧ lookupN s'.blocks a = none ∧ lookupN s'.raw a = none
      ∧ Frames s s' (a :: rest)
      ∧ s'.nextAddr = s.nextAddr ∧ s'.budget = s.budget := by
  obtain ⟨hrep, htr, hbnd, hnd, hpos⟩ := wfB_iff.mp hwf
  obtain ⟨hstarta, n, hn, hnprev, hsegrest⟩ := segB_cons_iff.mp hrep
  have hapos : 0 < a := (hbnd a (by simp)).1
  have hstartpos : 0 < d.start := by rw [hstarta]; exact hapos
  have hanotrest : a ∉ rest := (List.nodup_cons.mp hnd).1
  have hta : (getStrat s.strats sid).allocEls.contains a = true := by
    rw [contains_iff_mem]
    exact (trackedB_some (by rw [hsid])).mp htr a (by simp)
  have hn' : lookupN s.blocks d.start = some n := by rw [hstarta]; exact hn
  have hdata : dataAt s a = n.data := by rw [dataAt, hn]
  set s1 := deallocResult s sid a with hs1def
  have hs1blocks : ∀ q, q ≠ a → lookupN s1.blocks q = lookupN s.blocks q :=
    fun q hq => lookupN_filter_ne _ _ _ hq
  have hs1blocksa : lookupN s1.blocks a = none := lookupN_filter_self _ _
  have hs1rawa : lookupN s1.raw a = none := lookupN_filter_self _ _
  have hs1stra : getStrat s1.strats sid
      = ⟨(getStrat s.strats sid).allocEls.erase a⟩ :=
    getStrat_updStrat_self _ _ _
  have hs1strb : ∀ sid', sid' ≠ sid →
      getStrat s1.strats sid' = getStrat s.strats sid' :=
    fun sid' h' => getStrat_updStrat_ne _ _ _ _ h'
  cases rest with
  | nil =>
    obtain ⟨hnext0, htaila⟩ := segB_nil_iff.mp hsegrest
    refine ⟨s1, ?_, ?_, rfl, hs1blocksa, hs1rawa, ?_, rfl, rfl⟩
    · rw [PopFront]
      rw [if_neg (Nat.pos_iff_ne_zero.mp hstartpos)]
      rw [readNode_ok hn']
      show (do
        let s2 ← sa_dealloc s d.allocator d.start
        let d1 : deque_t := { d with start := n.next }
        if n.next = 0 then Except.ok (n.data, s2, { d1 with tail := 0 })
        else do
          let s3 ← setPrev s2 d1.start 0
          Except.ok (n.data, s3, d1)) = _
      rw [hsid, hstarta, sa_dealloc_ok hn hta]
      show (if n.next = 0 then _ else _) = _
      rw [if_pos hnext0]
      rw [hdata, hnext0]
      rfl
    · rw [wfB_iff]
      refine ⟨?_, by simp [trackedB], by simp, by simp, hpos⟩
      show segB s1 0 (List.headD [] 0) [] 0
        (if ([] : List Nat) = [] then 0 else d.tail) = true
      rw [if_pos rfl, segB_nil_iff]
      exact ⟨rfl, rfl⟩
    · refine ⟨?_, le_refl _, ?_⟩
      · intro q hq hlt
        exact hs1blocks q (fun hc => hq (by rw [hc]; simp))
      · intro sid' q hq hlt
        by_cases hss : sid' = sid
        · subst hss
          rw [hs1stra]
          exact contains_erase_ne _ _ _ (fun hc => hq (by rw [hc]; simp))
        · rw [hs1strb sid' hss]
  | cons b rest' =>
    obtain ⟨hnextb, nb, hnb, hnbprev, hseg2⟩ := segB_cons_iff.mp hsegrest
    have hbpos : 0 < b := (hbnd b (by simp)).1
    have hba : b ≠ a := fun hc => hanotrest (hc ▸ List.mem_cons_self b rest')
    have hbnotrest : b ∉ rest' :=
      (List.nodup_cons.mp (List.nodup_cons.mp hnd).2).1
    have hanotrest' : a ∉ rest' :=
      fun hc => hanotrest (List.mem_cons_of_mem _ hc)
    have hnb1 : lookupN s1.blocks b = some nb := by
      rw [hs1blocks b hba, hnb]
    set s2 : State :=
      { s1 with blocks := updN s1.blocks b { nb with prev := 0 } }
      with hs2def
    have hs2b : lookupN s2.blocks b = some { nb with prev := 0 } := by
      show lookupN (updN s1.blocks b _) b = _
      exact lookupN_updN_self _ _ _ _ hnb1
    have hs2other : ∀ q, q ≠ b → q ≠ a →
        lookupN s2.blocks q = lookupN s.blocks q := by
      intro q h1 h2
      show lookupN (updN s1.blocks b _) q = _
      rw [lookupN_updN_ne _ _ _ _ h1]
      exact hs1blocks q h2
    refine ⟨s2, ?_, ?_, ?_, ?_, hs1rawa, ?_, rfl, rfl⟩
    · rw [PopFront]
      rw [if_neg (Nat.pos_iff_ne_zero.mp hstartpos)]
      rw [readNode_ok hn']
      show (do
        let s2' ← sa_dealloc s d.allocator d.start
        let d1 : deque_t := { d with start := n.next }
        if n.next = 0 then Except.ok (n.data, s2', { d1 with tail := 0 })
        else do
          let s3 ← setPrev s2' d1.start 0
          Except.ok (n.data, s3, d1)) = _
      rw [hsid, hstarta, sa_dealloc_ok hn hta]
      show (if n.next = 0 then _ else _) = _
      rw [if_neg (by rw [hnextb]; exact Nat.pos_iff_ne_zero.mp hbpos)]
      show (do
        let s3 ← setPrev s1 n.next 0
        Except.ok (n.data, s3,
          (⟨n.next, d.tail, ⟨some sid⟩⟩ : deque_t))) = _
      rw [hnextb, setPrev_ok hnb1]
      rw [hdata]
      rw [if_neg (show ¬ (b :: rest' = []) by simp)]
      rfl
    · rw [wfB_iff]
      refine ⟨?_, ?_, ?_, (List.nodup_cons.mp hnd).2, hpos⟩
      · show segB s2 0 (List.headD (b :: rest') 0) (b :: rest') 0
          (if b :: rest' = [] then 0 else d.tail) = true
        rw [if_neg (by simp)]
        show segB s2 0 b (b :: rest') 0 d.tail = true
        rw [segB_cons_iff]
        refine ⟨rfl, { nb with prev := 0 }, hs2b, rfl, ?_⟩
        show segB s2 b nb.next rest' 0 d.tail = true
        rw [segB_frame (fun x hx => hs2other x
          (fun hc => hbnotrest (by rw [← hc]; exact hx))
          (fun hc => hanotrest' (by rw [← hc]; exact hx)))]
        exact hseg2
      · rw [trackedB_some (by rw [hsid])]
        intro q hq
        have : getStrat s2.strats sid
            = ⟨(getStrat s.strats sid).allocEls.erase a⟩ := hs1stra
        rw [← contains_iff_mem, this,
          contains_erase_ne _ _ _
            (fun hc => hanotrest (by rw [← hc]; exact hq)),
          contains_iff_mem]
        exact (trackedB_some (by rw [hsid])).mp htr q
          (List.mem_cons_of_mem _ hq)
      · intro x hx
        exact hbnd x (List.mem_cons_of_mem _ hx)
    · apply chainData_congr_data
      intro x hx
      by_cases hxb : x = b
      · subst hxb
        rw [dataAt, dataAt, hs2b, hnb]
      · rw [dataAt, dataAt, hs2other x hxb
          (fun hc => hanotrest (by rw [← hc]; exact hx))]
    · show lookupN (updN s1.blocks b { nb with prev := 0 }) a = none
      rw [lookupN_updN_ne _ _ _ _ (fun hc => hba hc.symm)]
      exact hs1blocksa
    · refine ⟨?_, le_refl _, ?_⟩
      · intro q hq hlt
        exact hs2other q (fun hc => hq (by rw [hc]; simp))
          (fun hc => hq (by rw [hc]; simp))
      · intro sid' q hq hlt
        show (getStrat s1.strats sid').allocEls.contains q = _
        by_cases hss : sid' = sid
        · subst hss
          rw [hs1stra]
          exact contains_erase_ne _ _ _ (fun hc => hq (by rw [hc]; simp))
        · rw [hs1strb sid' hss]

/-!  Fresh-address chains produced by a run of allocations. -/

theorem freshChain_length (st n : Nat) : (freshChain st n).length = n := by
  induction n generalizing st with
  | zero => rfl
  | succ n ih => simp [freshChain, ih]

theorem freshChain_mem {st n x : Nat} :
    x ∈ freshChain st n ↔ st ≤ x ∧ x < st + n := by
  induction n generalizing st with
  | zero => simp [freshChain]
  | succ n ih =>
    simp only [freshChain, List.mem_cons, ih]
    omega

theorem freshChain_nodup (st n : Nat) : (freshChain st n).Nodup := by
  induction n generalizing st with
  | zero => exact List.nodup_nil
  | succ n ih =>
    rw [freshChain, List.nodup_cons]
    refine ⟨?_, ih (st + 1)⟩
    rw [freshChain_mem]
    omega

theorem freshChain_getLastD_succ (st n d : Nat) :
    (freshChain st (n + 1)).getLastD d = st + n := by
  induction n generalizing st d with
  | zero => rfl
  | succ n ih =>
    show (freshChain (st + 1) (n + 1)).getLastD st = st + (n + 1)
    rw [ih]
    omega

theorem freshChain_succ (st n : Nat) :
    freshChain st (n + 1) = st :: freshChain (st + 1) n := rfl

/-!  Full specification of the copy loop shared by CopyList and
ChangeAllocator. -/

theorem CopyListLoop_spec {sid : Nat} {cs : List Nat} :
    ∀ {s : State} {node prev pra lasta : Nat} {pn : node_t} {fuel : Nat},
    segB s pra node cs 0 lasta = true →
    lookupN s.blocks prev = some pn →
    (∀ a ∈ cs, 0 < a ∧ a < s.nextAddr) → prev < s.nextAddr →
    cs.Nodup → prev ∉ cs →
    cs.length ≤ s.budget → cs.length < fuel → 0 < s.nextAddr →
    ∃ s', CopyListLoop s ⟨some sid⟩ node prev fuel
        = .ok (s', (freshChain s.nextAddr cs.length).getLastD prev)
      ∧ segB s' pn.prev prev (prev :: freshChain s.nextAddr cs.length)
          (if cs.length = 0 then pn.next else 0)
          ((freshChain s.nextAddr cs.length).getLastD prev) = true
      ∧ dataAt s' prev = pn.data
      ∧ chainData s' (freshChain s.nextAddr cs.length) = chainData s cs
      ∧ (∀ q, q < s.nextAddr → q ≠ prev →
          lookupN s'.blocks q = lookupN s.blocks q)
      ∧ s'.nextAddr = s.nextAddr + cs.length
      ∧ s'.budget = s.budget - cs.length
      ∧ (∀ sid', sid' ≠ sid →
          getStrat s'.strats sid' = getStrat s.strats sid')
      ∧ (getStrat s'.strats sid).allocEls
          = (getStrat s.strats sid).allocEls
              ++ freshChain s.nextAddr cs.length := by
  induction cs with
  | nil =>
    intro s node prev pra lasta pn fuel hseg hprev hbnd hprevlt hnd hnotin
      hbud hfuel hpos
    obtain ⟨hnode, _⟩ := segB_nil_iff.mp hseg
    cases fuel with
    | zero => simp at hfuel
    | succ fuel =>
      refine ⟨s, ?_, ?_, ?_, rfl, ?_, ?_, ?_, ?_, ?_⟩
      · rw [CopyListLoop, if_pos hnode]
        rfl
      · show segB s pn.prev prev [prev] pn.next prev = true
        rw [segB_cons_iff]
        refine ⟨rfl, pn, hprev, rfl, ?_⟩
        rw [segB_nil_iff]
        exact ⟨rfl, rfl⟩
      · rw [dataAt, hprev]
      · exact fun q _ _ => rfl
      · simp [freshChain]
      · simp
      · exact fun sid' _ => rfl
      · simp [freshChain]
  | cons a rest ih =>
    intro s node prev pra lasta pn fuel hseg hprev hbnd hprevlt hnd hnotin
      hbud hfuel hpos
    obtain ⟨hnode, n, hn, hnprev, hseg'⟩ := segB_cons_iff.mp hseg
    simp only [List.length_cons] at hbud hfuel
    have hand := List.nodup_cons.mp hnd
    have hapos : 0 < a := (hbnd a (by simp)).1
    have halt : a < s.nextAddr := (hbnd a (by simp)).2
    have haprev : a ≠ prev := fun hc => hnotin (hc ▸ List.mem_cons_self a rest)
    have hbne : s.budget ≠ 0 := by omega
    have hzne : s.nextAddr ≠ 0 := Nat.pos_iff_ne_zero.mp hpos
    cases fuel with
    | zero => simp at hfuel
    | succ fuel =>
      -- allocate the copy of node a
      set tn : node_t := ⟨0, prev, n.data⟩ with htn
      set s1 := allocResult s sid tn with hs1def
      have hs1blocks : s1.blocks = (s.nextAddr, tn) :: s.blocks := rfl
      -- prev->next = tmp
      have hprev1 : lookupN s1.blocks prev = some pn := by
        rw [hs1blocks, lookupN_cons_ne _ _ _ _ (by omega), hprev]
      set s2 : State :=
        { s1 with blocks := updN s1.blocks prev { pn with next := s.nextAddr } }
        with hs2def
      have hs2tmp : lookupN s2.blocks s.nextAddr = some tn := by
        show lookupN (updN s1.blocks prev _) s.nextAddr = _
        rw [lookupN_updN_ne _ _ _ _ (by omega), hs1blocks]
        exact lookupN_cons_self _ _ _
      have hs2prev : lookupN s2.blocks prev
          = some { pn with next := s.nextAddr } := by
        show lookupN (updN s1.blocks prev _) prev = _
        exact lookupN_updN_self _ _ _ _ hprev1
      have hs2other : ∀ q, q ≠ prev → q ≠ s.nextAddr →
          lookupN s2.blocks q = lookupN s.blocks q := by
        intro q h1 h2
        show lookupN (updN s1.blocks prev _) q = _
        rw [lookupN_updN_ne _ _ _ _ h1, hs1blocks,
          lookupN_cons_ne _ _ _ _ h2]
      have hs2seg : segB s2 a n.next rest 0 lasta = true := by
        rw [segB_frame (fun x hx => hs2other x
          (fun hc => hnotin (by rw [← hc]; exact List.mem_cons_of_mem _ hx))
          (fun hc => by
            have := (hbnd x (List.mem_cons_of_mem _ hx)).2
            omega))]
        exact hseg'
      have hs2stra : getStrat s2.strats sid
          = ⟨(getStrat s.strats sid).allocEls ++ [s.nextAddr]⟩ :=
        getStrat_updStrat_self _ _ _
      have hs2strb : ∀ sid', sid' ≠ sid →
          getStrat s2.strats sid' = getStrat s.strats sid' :=
        fun sid' h' => getStrat_updStrat_ne _ _ _ _ h'
      have hs2next : s2.nextAddr = s.nextAddr + 1 := rfl
      have hs2bud : s2.budget = s.budget - 1 := rfl
      obtain ⟨s', hrun, hsegout, hdataout, hchainout, hframeout, hnaout,
        hbudout, hstrout, hstraout⟩ :=
        @ih s2 n.next s.nextAddr a lasta tn fuel hs2seg hs2tmp
          (fun x hx => by
            have := hbnd x (List.mem_cons_of_mem _ hx)
            constructor
            · exact this.1
            · rw [hs2next]; omega)
          (by rw [hs2next]; omega)
          hand.2
          (fun hc => by
            have := (hbnd _ (List.mem_cons_of_mem _ hc)).2
            omega)
          (by rw [hs2bud]; omega)
          (by omega)
          (by rw [hs2next]; omega)
      have hlast : (freshChain s.nextAddr (a :: rest).length).getLastD prev
          = (freshChain (s.nextAddr + 1) rest.length).getLastD s.nextAddr := by
        rw [List.length_cons, freshChain_succ, List.getLastD_cons]
      refine ⟨s', ?_, ?_, ?_, ?_, ?_, ?_, ?_, ?_, ?_⟩
      · rw [CopyListLoop, if_neg (Nat.pos_iff_ne_zero.mp (hnode ▸ hapos))]
        rw [readNode_ok (show lookupN s.blocks node = some n from hnode ▸ hn)]
        show (do
          let r ← sa_alloc s ⟨some sid⟩ ⟨0, prev, n.data⟩
          let s2x ← setNext r.2 prev r.1
          let nd2 ← readNode s2x node
          let pd2 ← readNode s2x prev
          CopyListLoop s2x ⟨some sid⟩ nd2.next pd2.next fuel) = _
        rw [sa_alloc_ok hbne hzne]
        show (do
          let s2x ← setNext s1 prev s.nextAddr
          let nd2 ← readNode s2x node
          let pd2 ← readNode s2x prev
          CopyListLoop s2x ⟨some sid⟩ nd2.next pd2.next fuel) = _
        rw [setNext_ok hprev1]
        show (do
          let nd2 ← readNode s2 node
          let pd2 ← readNode s2 prev
          CopyListLoop s2 ⟨some sid⟩ nd2.next pd2.next fuel) = _
        rw [readNode_ok (show lookupN s2.blocks node = some n from by
          rw [hnode]
          rw [hs2other a haprev (by omega)]
          exact hn)]
        show (do
          let pd2 ← readNode s2 prev
          CopyListLoop s2 ⟨some sid⟩ n.next pd2.next fuel) = _
        rw [readNode_ok hs2prev]
        show CopyListLoop s2 ⟨some sid⟩ n.next s.nextAddr fuel = _
        rw [hrun, hlast]
        rfl
      · rw [List.length_cons, freshChain_succ, segB_cons_iff]
        refine ⟨rfl, { pn with next := s.nextAddr }, ?_, rfl, ?_⟩
        · rw [hframeout prev (by rw [hs2next]; omega) (by omega)]
          exact hs2prev
        · show segB s' prev s.nextAddr
            (s.nextAddr :: freshChain (s.nextAddr + 1) rest.length)
            (if rest.length + 1 = 0 then pn.next else 0)
            ((s.nextAddr :: freshChain (s.nextAddr + 1) rest.length).getLastD
              prev) = true

          rw [if_neg (by omega), List.getLastD_cons]
          have := hsegout
          rw [hs2next] at this
          by_cases hr : rest.length = 0
          · rw [hr] at this ⊢
            simp only [if_pos rfl] at this
            show segB s' prev s.nextAddr
              (s.nextAddr :: freshChain (s.nextAddr + 1) 0) 0
              ((freshChain (s.nextAddr + 1) 0).getLastD s.nextAddr) = true
            exact this
          · rw [if_neg hr] at this
            exact this
      · rw [dataAt, hframeout prev (by rw [hs2next]; omega) (by omega),
          hs2prev]
      · rw [List.length_cons, freshChain_succ]
        show List.map (dataAt s') (s.nextAddr :: freshChain (s.nextAddr + 1)
          rest.length) = chainData s (a :: rest)
        rw [List.map_cons]
        have h0 : dataAt s' s.nextAddr = n.data := hdataout
        have h1 : List.map (dataAt s') (freshChain (s.nextAddr + 1)
            rest.length) = chainData s rest := by
          rw [hs2next] at hchainout
          show chainData s' (freshChain (s.nextAddr + 1) rest.length) = _
          rw [hchainout]
          apply chainData_congr_data
          intro x hx
          rw [dataAt, dataAt, hs2other x
            (fun hc => hnotin (by rw [← hc]; exact List.mem_cons_of_mem _ hx))
            (fun hc => by
              have := (hbnd x (List.mem_cons_of_mem _ hx)).2
              omega)]
        rw [h0, h1]
        show _ = List.map (dataAt s) (a :: rest)
        rw [List.map_cons,
          show dataAt s a = n.data from by rw [dataAt, hn]]
        rfl
      · intro q hq hqprev
        rw [hframeout q (by rw [hs2next]; omega) (by omega)]
        exact hs2other q hqprev (by omega)
      · rw [hnaout, hs2next, List.length_cons]
        omega
      · rw [hbudout, hs2bud, List.length_cons]
        omega
      · intro sid' h'
        rw [hstrout sid' h', hs2strb sid' h']
      · rw [hstraout, hs2stra, hs2next, List.length_cons, freshChain_succ]
        show _ = (getStrat s.strats sid).allocEls
          ++ (s.nextAddr :: freshChain (s.nextAddr + 1) rest.length)
        rw [List.append_assoc]
        rfl

theorem contains_append_not_mem (l₁ l₂ : List Nat) (q : Nat) (h : q ∉ l₂) :
    (l₁ ++ l₂).contains q = l₁.contains q := by
  by_cases hm : q ∈ l₁
  · rw [(contains_iff_mem _ _).mpr hm,
      (contains_iff_mem _ _).mpr (List.mem_append.mpr (Or.inl hm))]
  · have e1 : (l₁ ++ l₂).contains q = false :=
      Bool.eq_false_iff.mpr (fun hc => by
        rcases List.mem_append.mp ((contains_iff_mem _ _).mp hc) with h1 | h1
        · exact hm h1
        · exact h h1)
    have e2 : l₁.contains q = false :=
      Bool.eq_false_iff.mpr (fun hc => hm ((contains_iff_mem _ _).mp hc))
    rw [e1, e2]

/-!  Specification of CopyList on a represented source chain. -/

theorem CopyList_spec {s : State} {sid : Nat} {p lastc : Nat} {c : List Nat}
    {fuel : Nat}
    (hseg : segB s 0 p c 0 lastc = true)
    (hbnd : ∀ a ∈ c, 0 < a ∧ a < s.nextAddr)
    (hnd : c.Nodup)
    (hbud : c.length ≤ s.budget) (hfuel : c.length < fuel)
    (hpos : 0 < s.nextAddr) :
    ∃ s', CopyList s ⟨some sid⟩ p fuel
        = .ok (s', (freshChain s.nextAddr c.length).headD 0,
               (freshChain s.nextAddr c.length).getLastD 0)
      ∧ wfB s' ⟨(freshChain s.nextAddr c.length).headD 0,
            (freshChain s.nextAddr c.length).getLastD 0, ⟨some sid⟩⟩
          (freshChain s.nextAddr c.length) = true
      ∧ chainData s' (freshChain s.nextAddr c.length) = chainData s c
      ∧ Frames s s' []
      ∧ s'.nextAddr = s.nextAddr + c.length
      ∧ s'.budget = s.budget - c.length := by
  cases c with
  | nil =>
    obtain ⟨hp, _⟩ := segB_nil_iff.mp hseg
    refine ⟨s, ?_, ?_, rfl, ⟨fun q _ _ => rfl, le_refl _, fun _ q _ _ => rfl⟩,
      by simp, by simp⟩
    · rw [CopyList]
      show (if p = 0 then _ else _) = _
      rw [if_pos hp]
      rfl
    · rw [wfB_iff]
      refine ⟨?_, by simp [trackedB, freshChain], by simp [freshChain],
        by simp [freshChain], hpos⟩
      show segB s 0 (List.headD [] 0) [] 0 (List.getLastD [] 0) = true
      rw [segB_nil_iff]
      exact ⟨rfl, rfl⟩
  | cons a rest =>
    simp only [List.length_cons] at hbud hfuel ⊢
    obtain ⟨hpa, n, hn, hnprev, hseg'⟩ := segB_cons_iff.mp hseg
    have hand := List.nodup_cons.mp hnd
    have hapos : 0 < a := (hbnd a (by simp)).1
    have halt : a < s.nextAddr := (hbnd a (by simp)).2
    have hppos : 0 < p := by rw [hpa]; exact hapos
    have hbne : s.budget ≠ 0 := by omega
    have hzne : s.nextAddr ≠ 0 := Nat.pos_iff_ne_zero.mp hpos
    have hn' : lookupN s.blocks p = some n := by rw [hpa]; exact hn
    set s1 := allocResult s sid n with hs1def
    have hs1blocks : s1.blocks = (s.nextAddr, n) :: s.blocks := rfl
    have hs1P : lookupN s1.blocks s.nextAddr = some n := by
      rw [hs1blocks]; exact lookupN_cons_self _ _ _
    have hs1other : ∀ q, q ≠ s.nextAddr →
        lookupN s1.blocks q = lookupN s.blocks q := by
      intro q hq
      rw [hs1blocks]
      exact lookupN_cons_ne _ _ _ _ hq
    have hs1p : lookupN s1.blocks p = some n := by
      rw [hs1other p (by rw [hpa]; omega), hpa]
      exact hn
    have hs1seg : segB s1 a n.next rest 0 lastc = true := by
      rw [segB_frame (fun x hx => hs1other x (fun hc => by
        have := (hbnd x (List.mem_cons_of_mem _ hx)).2
        omega))]
      exact hseg'
    have hs1stra : getStrat s1.strats sid
        = ⟨(getStrat s.strats sid).allocEls ++ [s.nextAddr]⟩ :=
      getStrat_updStrat_self _ _ _
    have hs1strb : ∀ sid', sid' ≠ sid →
        getStrat s1.strats sid' = getStrat s.strats sid' :=
      fun sid' h' => getStrat_updStrat_ne _ _ _ _ h'
    have hs1next : s1.nextAddr = s.nextAddr + 1 := rfl
    have hs1bud : s1.budget = s.budget - 1 := rfl
    obtain ⟨s2, hrun, hsegout, hdataout, hchainout, hframeout, hnaout,
      hbudout, hstrout, hstraout⟩ :=
      @CopyListLoop_spec sid rest s1 n.next s.nextAddr a lastc n fuel
        hs1seg hs1P
        (fun x hx => by
          have := hbnd x (List.mem_cons_of_mem _ hx)
          constructor
          · exact this.1
          · rw [hs1next]; omega)
        (by rw [hs1next]; omega)
        hand.2
        (fun hc => by
          have := (hbnd _ (List.mem_cons_of_mem _ hc)).2
          omega)
        (by rw [hs1bud]; omega)
        (by omega)
        (by rw [hs1next]; omega)
    rw [hs1next] at hsegout hchainout hnaout hstraout hrun
    -- the copied segment with the entry prev of the source head (null)
    have hsegfull : segB s2 0 s.nextAddr
        (s.nextAddr :: freshChain (s.nextAddr + 1) rest.length) 0
        ((freshChain (s.nextAddr + 1) rest.length).getLastD s.nextAddr)
        = true := by
      rw [hnprev] at hsegout
      by_cases hr : rest.length = 0
      · rw [hr] at hsegout ⊢
        simp only [if_pos rfl] at hsegout
        have hnx0 : n.next = 0 := by
          cases rest with
          | nil => exact (segB_nil_iff.mp hseg').1
          | cons x xs => simp at hr
        rw [hnx0] at hsegout
        exact hsegout
      · rw [if_neg hr] at hsegout
        exact hsegout
    have hlastmem : ((freshChain (s.nextAddr + 1) rest.length).getLastD
        s.nextAddr) ∈ s.nextAddr :: freshChain (s.nextAddr + 1) rest.length :=
      segB_exit_mem hsegfull (by simp)
    obtain ⟨mf, hmf, hmfnext⟩ := segB_last_next hsegfull (by simp)
    have hmfeq : ({ mf with next := 0 } : node_t) = mf := by
      cases mf with
      | mk mfn mfp mfd =>
        simp_all
    set prevFin : Nat :=
      (freshChain (s.nextAddr + 1) rest.length).getLastD s.nextAddr
      with hprevFin
    set s3 : State :=
      { s2 with blocks := updN s2.blocks prevFin { mf with next := 0 } }
      with hs3def
    have hs3eq : ∀ q, lookupN s3.blocks q = lookupN s2.blocks q := by
      intro q
      by_cases hq : q = prevFin
      · subst hq
        show lookupN (updN s2.blocks prevFin { mf with next := 0 }) prevFin
          = lookupN s2.blocks prevFin
        rw [lookupN_updN_self _ _ _ _ hmf, hmf, hmfeq]
      · show lookupN (updN s2.blocks prevFin _) q = _
        rw [lookupN_updN_ne _ _ _ _ hq]
    have hallocEq : (getStrat s3.strats sid).allocEls
        = (getStrat s.strats sid).allocEls
          ++ (s.nextAddr :: freshChain (s.nextAddr + 1) rest.length) := by
      show (getStrat s2.strats sid).allocEls = _
      rw [hstraout, hs1stra]
      show ((getStrat s.strats sid).allocEls ++ [s.nextAddr]) ++ _ = _
      rw [List.append_assoc]
      rfl
    have hs3next : s3.nextAddr = s.nextAddr + 1 + rest.length := hnaout
    have hmemfresh : ∀ x ∈ freshChain (s.nextAddr + 1) rest.length,
        s.nextAddr + 1 ≤ x ∧ x < s.nextAddr + 1 + rest.length :=
      fun x hx => freshChain_mem.mp hx
    refine ⟨s3, ?_, ?_, ?_, ?_, ?_, ?_⟩
    · rw [CopyList]
      show (if p = 0 then _ else _) = _
      rw [if_neg (Nat.pos_iff_ne_zero.mp hppos)]
      show (do
        let src ← readNode s p
        let r ← sa_alloc s ⟨some sid⟩ src
        let b ← readNode r.2 p
        let lp ← CopyListLoop r.2 ⟨some sid⟩ b.next r.1 fuel
        let s3x ← setNext lp.1 lp.2 0
        Except.ok (s3x, r.1, lp.2)) = _
      rw [readNode_ok hn']
      show (do
        let r ← sa_alloc s ⟨some sid⟩ n
        let b ← readNode r.2 p
        let lp ← CopyListLoop r.2 ⟨some sid⟩ b.next r.1 fuel
        let s3x ← setNext lp.1 lp.2 0
        Except.ok (s3x, r.1, lp.2)) = _
      rw [sa_alloc_ok hbne hzne]
      show (do
        let b ← readNode s1 p
        let lp ← CopyListLoop s1 ⟨some sid⟩ b.next s.nextAddr fuel
        let s3x ← setNext lp.1 lp.2 0
        Except.ok (s3x, s.nextAddr, lp.2)) = _
      rw [readNode_ok hs1p]
      show (do
        let lp ← CopyListLoop s1 ⟨some sid⟩ n.next s.nextAddr fuel
        let s3x ← setNext lp.1 lp.2 0
        Except.ok (s3x, s.nextAddr, lp.2)) = _
      rw [hrun]
      show (do
        let s3x ← setNext s2 prevFin 0
        Except.ok (s3x, s.nextAddr, prevFin)) = _
      rw [setNext_ok hmf]
      rw [freshChain_succ, List.headD_cons, List.getLastD_cons]
      rfl
    · rw [wfB_iff, freshChain_succ, List.headD_cons, List.getLastD_cons]
      refine ⟨?_, ?_, ?_, ?_, ?_⟩
      · show segB s3 0 s.nextAddr
          (s.nextAddr :: freshChain (s.nextAddr + 1) rest.length) 0 prevFin
          = true
        rw [segB_frame (fun x hx => hs3eq x)]
        exact hsegfull
      · rw [trackedB_some rfl]
        intro q hq
        rw [hallocEq]
        exact List.mem_append.mpr (Or.inr hq)
      · intro x hx
        rcases List.mem_cons.mp hx with h1 | h1
        · subst h1
          constructor
          · exact hpos
          · show s.nextAddr < s3.nextAddr
            rw [hs3next]; omega
        · have := hmemfresh x h1
          constructor
          · omega
          · show x < s3.nextAddr
            rw [hs3next]; omega
      · rw [List.nodup_cons]
        refine ⟨?_, freshChain_nodup _ _⟩
        intro hc
        have := hmemfresh _ hc
        omega
      · show 0 < s3.nextAddr
        rw [hs3next]; omega
    · rw [freshChain_succ]
      have he : chainData s3
          (s.nextAddr :: freshChain (s.nextAddr + 1) rest.length)
          = chainData s2
          (s.nextAddr :: freshChain (s.nextAddr + 1) rest.length) :=
        chainData_congr (fun x hx => hs3eq x)
      rw [he]
      show dataAt s2 s.nextAddr
          :: chainData s2 (freshChain (s.nextAddr + 1) rest.length)
          = chainData s (a :: rest)
      have h1 : chainData s1 rest = chainData s rest := by
        apply chainData_congr_data
        intro x hx
        rw [dataAt, dataAt, hs1other x (fun hc => by
          have := (hbnd x (List.mem_cons_of_mem _ hx)).2
          omega)]
      rw [hdataout, hchainout, h1]
      show _ = List.map (dataAt s) (a :: rest)
      rw [List.map_cons,
        show dataAt s a = n.data from by rw [dataAt, hn]]
      rfl
    · refine ⟨?_, ?_, ?_⟩
      · intro q hq hlt
        rw [hs3eq q,
          hframeout q (by rw [hs1next]; omega) (by omega)]
        exact hs1other q (by omega)
      · show s.nextAddr ≤ s3.nextAddr
        rw [hs3next]; omega
      · intro sid' q hq hlt
        show (getStrat s2.strats sid').allocEls.contains q = _
        by_cases hss : sid' = sid
        · subst hss
          have : (getStrat s2.strats sid').allocEls
              = (getStrat s.strats sid').allocEls
                ++ (s.nextAddr :: freshChain (s.nextAddr + 1) rest.length) :=
            hallocEq
          rw [this]
          apply contains_append_not_mem
          intro hc
          rcases List.mem_cons.mp hc with h1 | h1
          · omega
          · have := hmemfresh _ h1
            omega
        · rw [hstrout sid' hss, hs1strb sid' hss]
    · show s3.nextAddr = s.nextAddr + (rest.length + 1)
      rw [hs3next]; omega
    · show s2.budget = s.budget - (rest.length + 1)
      rw [hbudout, hs1bud]
      omega

/-!  Specifications of Clear, the copy operations and the moves. -/

/-- Package the FreeList postconditions as a Frames relation. -/
theorem FreeList_frames {s s' : State} {sid : Nat} {c : List Nat}
    (hout : ∀ q, q ∉ c → lookupN s'.blocks q = lookupN s.blocks q)
    (hna : s'.nextAddr = s.nextAddr)
    (hstr : ∀ sid', sid' ≠ sid → getStrat s'.strats sid' = getStrat s.strats sid')
    (hstr2 : ∀ q, q ∉ c → (getStrat s'.strats sid).allocEls.contains q
        = (getStrat s.strats sid).allocEls.contains q) :
    Frames s s' c := by
  refine ⟨fun q hq _ => hout q hq, by omega, ?_⟩
  intro sid' q hq _
  by_cases hss : sid' = sid
  · subst hss
    exact hstr2 q hq
  · rw [hstr sid' hss]

theorem Clear_spec {s : State} {d : deque_t} {c : List Nat} {sid fuel : Nat}
    (hwf : wfB s d c = true) (hsid : d.allocator = ⟨some sid⟩)
    (hfuel : c.length < fuel) :
    ∃ s', Clear s d fuel = .ok (s', ⟨0, 0, d.allocator⟩)
      ∧ wfB s' ⟨0, 0, d.allocator⟩ [] = true
      ∧ (∀ q ∈ c, lookupN s'.blocks q = none ∧ lookupN s'.raw q = none)
      ∧ Frames s s' c
      ∧ s'.nextAddr = s.nextAddr ∧ s'.budget = s.budget := by
  obtain ⟨hrep, htr, hbnd, hnd, hpos⟩ := wfB_iff.mp hwf
  obtain ⟨s', hrun, hin, hout, hinr, houtr, hna, hbud, hstr, hstr2⟩ :=
    FreeList_spec hrep
      (fun a ha => by
        rw [contains_iff_mem]
        exact (trackedB_some (by rw [hsid])).mp htr a ha)
      (fun a ha => (hbnd a ha).1) hnd hfuel
  refine ⟨s', ?_, ?_, fun q hq => ⟨hin q hq, hinr q hq⟩,
    FreeList_frames hout hna hstr hstr2, hna, hbud⟩
  · rw [Clear, hsid]
    show (do
      let s1 ← FreeList s ⟨some sid⟩ d.start fuel
      Except.ok (s1, (⟨0, 0, ⟨some sid⟩⟩ : deque_t))) = _
    rw [hrun]
    rfl
  · rw [wfB_iff]
    refine ⟨?_, by simp [trackedB], by simp, by simp, by omega⟩
    rw [segB_nil_iff]
    exact ⟨rfl, rfl⟩

theorem deque_copy_ctor_spec {s : State} {lhs : deque_t} {c : List Nat}
    {sid fuel : Nat} (hwf : wfB s lhs c = true)
    (hsid : lhs.allocator = ⟨some sid⟩)
    (hbud : c.length ≤ s.budget) (hfuel : c.length < fuel) :
    ∃ s', deque_copy_ctor s lhs fuel
        = .ok (s', ⟨(freshChain s.nextAddr c.length).headD 0,
            (freshChain s.nextAddr c.length).getLastD 0, lhs.allocator⟩)
      ∧ wfB s' ⟨(freshChain s.nextAddr c.length).headD 0,
            (freshChain s.nextAddr c.length).getLastD 0, lhs.allocator⟩
          (freshChain s.nextAddr c.length) = true
      ∧ chainData s' (freshChain s.nextAddr c.length) = chainData s c
      ∧ Frames s s' []
      ∧ s'.nextAddr = s.nextAddr + c.length
      ∧ s'.budget = s.budget - c.length := by
  obtain ⟨hrep, htr, hbnd, hnd, hpos⟩ := wfB_iff.mp hwf
  cases c with
  | nil =>
    obtain ⟨hstart, _⟩ := segB_nil_iff.mp hrep
    refine ⟨s, ?_, ?_, rfl,
      ⟨fun q _ _ => rfl, le_refl _, fun _ q _ _ => rfl⟩, by simp, by simp⟩
    · rw [deque_copy_ctor]
      show (if lhs.start = 0 then _ else _) = _
      rw [if_pos hstart]
      rfl
    · rw [wfB_iff]
      refine ⟨?_, by simp [trackedB, freshChain], by simp [freshChain],
        by simp [freshChain], hpos⟩
      show segB s 0 (List.headD [] 0) [] 0 (List.getLastD [] 0) = true
      rw [segB_nil_iff]
      exact ⟨rfl, rfl⟩
  | cons a rest =>
    have hstart : lhs.start = a := (segB_cons_iff.mp hrep).1
    have hstartpos : 0 < lhs.start := by
      rw [hstart]; exact (hbnd a (by simp)).1
    obtain ⟨s', hrun, hwf', hchain, hfr, hna, hbd⟩ :=
      @CopyList_spec s sid lhs.start lhs.tail (a :: rest) fuel hrep hbnd hnd
        hbud hfuel hpos
    rw [hsid]
    refine ⟨s', ?_, hwf', hchain, hfr, hna, hbd⟩
    rw [deque_copy_ctor]
    show (if lhs.start = 0 then _ else _) = _
    rw [if_neg (Nat.pos_iff_ne_zero.mp hstartpos)]
    show (do
      let r ← CopyList s lhs.allocator lhs.start fuel
      Except.ok (r.1, (⟨r.2.1, r.2.2, lhs.allocator⟩ : deque_t))) = _
    rw [hsid, hrun]
    rfl

theorem deque_copy_ctor_strat_spec {s : State} {lhs : deque_t}
    {c : List Nat} {sid fuel : Nat} (hwf : wfB s lhs c = true)
    (hbud : c.length ≤ s.budget) (hfuel : c.length < fuel) :
    ∃ s', deque_copy_ctor_strat s lhs sid fuel
        = .ok (s', ⟨(freshChain s.nextAddr c.length).headD 0,
            (freshChain s.nextAddr c.length).getLastD 0, ⟨some sid⟩⟩)
      ∧ wfB s' ⟨(freshChain s.nextAddr c.length).headD 0,
            (freshChain s.nextAddr c.length).getLastD 0, ⟨some sid⟩⟩
          (freshChain s.nextAddr c.length) = true
      ∧ chainData s' (freshChain s.nextAddr c.length) = chainData s c
      ∧ Frames s s' []
      ∧ s'.nextAddr = s.nextAddr + c.length
      ∧ s'.budget = s.budget - c.length := by
  obtain ⟨hrep, htr, hbnd, hnd, hpos⟩ := wfB_iff.mp hwf
  obtain ⟨s', hrun, hwf', hchain, hfr, hna, hbd⟩ :=
    @CopyList_spec s sid lhs.start lhs.tail c fuel hrep hbnd hnd
      hbud hfuel hpos
  refine ⟨s', ?_, hwf', hchain, hfr, hna, hbd⟩
  rw [deque_copy_ctor_strat]
  show (do
    let r ← CopyList s ⟨some sid⟩ lhs.start fuel
    Except.ok (r.1, (⟨r.2.1, r.2.2, ⟨some sid⟩⟩ : deque_t))) = _
  rw [hrun]
  rfl

theorem deque_copy_assign_spec {s : State} {dst lhs : deque_t}
    {cd cl : List Nat} {sidd sidl fuel : Nat}
    (hwfd : wfB s dst cd = true) (hwfl : wfB s lhs cl = true)
    (hsidd : dst.allocator = ⟨some sidd⟩)
    (hsidl : lhs.allocator = ⟨some sidl⟩)
    (hdis : ∀ a ∈ cl, a ∉ cd)
    (hbud : cl.length ≤ s.budget)
    (hfueld : cd.length < fuel) (hfuell : cl.length < fuel) :
    ∃ s', deque_copy_assign s dst lhs fuel
        = .ok (s', ⟨(freshChain s.nextAddr cl.length).headD 0,
            (freshChain s.nextAddr cl.length).getLastD 0, lhs.allocator⟩)
      ∧ wfB s' ⟨(freshChain s.nextAddr cl.length).headD 0,
            (freshChain s.nextAddr cl.length).getLastD 0, lhs.allocator⟩
          (freshChain s.nextAddr cl.length) = true
      ∧ chainData s' (freshChain s.nextAddr cl.length) = chainData s cl
      ∧ wfB s' lhs cl = true
      ∧ chainData s' cl = chainData s cl
      ∧ (∀ q ∈ cd, lookupN s'.blocks q = none)
      ∧ s'.nextAddr = s.nextAddr + cl.length := by
  obtain ⟨hrepd, htrd, hbndd, hndd, hpos⟩ := wfB_iff.mp hwfd
  obtain ⟨s1, hrun1, hin1, hout1, hinr1, houtr1, hna1, hbud1, hstr1, hstr21⟩ :=
    FreeList_spec hrepd
      (fun a ha => by
        rw [contains_iff_mem]
        exact (trackedB_some (by rw [hsidd])).mp htrd a ha)
      (fun a ha => (hbndd a ha).1) hndd hfueld
  have hfr1 : Frames s s1 cd := FreeList_frames hout1 hna1 hstr1 hstr21
  obtain ⟨hwfl1, hchl1⟩ := wf_mono hwfl hfr1 hdis
  obtain ⟨hrepl1, htrl1, hbndl1, hndl1, hpos1⟩ := wfB_iff.mp hwfl1
  obtain ⟨s2, hrun2, hwf2, hchain2, hfr2, hna2, hbd2⟩ :=
    @CopyList_spec s1 sidl lhs.start lhs.tail cl fuel hrepl1 hbndl1 hndl1
      (by rw [hbud1]; exact hbud) hfuell hpos1
  rw [hna1] at hwf2 hchain2 hna2 hrun2
  obtain ⟨hwfl2, hchl2⟩ := wf_mono hwfl1 hfr2 (fun a _ => List.not_mem_nil a)
  refine ⟨s2, ?_, ?_, ?_, hwfl2, by rw [hchl2, hchl1], ?_, by omega⟩
  · rw [deque_copy_assign, hsidd]
    show (do
      let s1x ← FreeList s ⟨some sidd⟩ dst.start fuel
      let r ← CopyList s1x lhs.allocator lhs.start fuel
      Except.ok (r.1, (⟨r.2.1, r.2.2, lhs.allocator⟩ : deque_t))) = _
    rw [hrun1, hsidl]
    show (do
      let r ← CopyList s1 ⟨some sidl⟩ lhs.start fuel
      Except.ok (r.1, (⟨r.2.1, r.2.2, ⟨some sidl⟩⟩ : deque_t))) = _
    rw [hrun2]
    rfl
  · rw [hsidl]
    exact hwf2
  · rw [hchain2, hchl1]
  · intro q hq
    obtain ⟨hfb2, _, _⟩ := hfr2
    rw [hfb2 q (List.not_mem_nil q) (by rw [hna1]; exact (hbndd q hq).2)]
    exact hin1 q hq

theorem deque_Copy_spec {s : State} {dst lhs : deque_t}
    {cd cl : List Nat} {sidd sid fuel : Nat}
    (hwfd : wfB s dst cd = true) (hwfl : wfB s lhs cl = true)
    (hsidd : dst.allocator = ⟨some sidd⟩)
    (hdis : ∀ a ∈ cl, a ∉ cd)
    (hbud : cl.length ≤ s.budget)
    (hfueld : cd.length < fuel) (hfuell : cl.length < fuel) :
    ∃ s', deque_Copy s dst lhs sid fuel
        = .ok (s', ⟨(freshChain s.nextAddr cl.length).headD 0,
            (freshChain s.nextAddr cl.length).getLastD 0, ⟨some sid⟩⟩)
      ∧ wfB s' ⟨(freshChain s.nextAddr cl.length).headD 0,
            (freshChain s.nextAddr cl.length).getLastD 0, ⟨some sid⟩⟩
          (freshChain s.nextAddr cl.length) = true
      ∧ chainData s' (freshChain s.nextAddr cl.length) = chainData s cl
      ∧ wfB s' lhs cl = true
      ∧ chainData s' cl = chainData s cl
      ∧ (∀ q ∈ cd, lookupN s'.blocks q = none)
      ∧ s'.nextAddr = s.nextAddr + cl.length := by
  obtain ⟨hrepd, htrd, hbndd, hndd, hpos⟩ := wfB_iff.mp hwfd
  obtain ⟨s1, hrun1, hin1, hout1, hinr1, houtr1, hna1, hbud1, hstr1, hstr21⟩ :=
    FreeList_spec hrepd
      (fun a ha => by
        rw [contains_iff_mem]
        exact (trackedB_some (by rw [hsidd])).mp htrd a ha)
      (fun a ha => (hbndd a ha).1) hndd hfueld
  have hfr1 : Frames s s1 cd := FreeList_frames hout1 hna1 hstr1 hstr21
  obtain ⟨hwfl1, hchl1⟩ := wf_mono hwfl hfr1 hdis
  obtain ⟨hrepl1, htrl1, hbndl1, hndl1, hpos1⟩ := wfB_iff.mp hwfl1
  obtain ⟨s2, hrun2, hwf2, hchain2, hfr2, hna2, hbd2⟩ :=
    @CopyList_spec s1 sid lhs.start lhs.tail cl fuel hrepl1 hbndl1 hndl1
      (by rw [hbud1]; exact hbud) hfuell hpos1
  rw [hna1] at hwf2 hchain2 hna2 hrun2
  obtain ⟨hwfl2, hchl2⟩ := wf_mono hwfl1 hfr2 (fun a _ => List.not_mem_nil a)
  refine ⟨s2, ?_, hwf2, ?_, hwfl2, by rw [hchl2, hchl1], ?_, by omega⟩
  · rw [deque_Copy, hsidd]
    show (do
      let s1x ← FreeList s ⟨some sidd⟩ dst.start fuel
      let r ← CopyList s1x ⟨some sid⟩ lhs.start fuel
      Except.ok (r.1, (⟨r.2.1, r.2.2, ⟨some sid⟩⟩ : deque_t))) = _
    rw [hrun1]
    show (do
      let r ← CopyList s1 ⟨some sid⟩ lhs.start fuel
      Except.ok (r.1, (⟨r.2.1, r.2.2, ⟨some sid⟩⟩ : deque_t))) = _
    rw [hrun2]
    rfl
  · rw [hchain2, hchl1]
  · intro q hq
    obtain ⟨hfb2, _, _⟩ := hfr2
    rw [hfb2 q (List.not_mem_nil q) (by rw [hna1]; exact (hbndd q hq).2)]
    exact hin1 q hq

theorem deque_move_ctor_spec {s : State} {rhs : deque_t} {c : List Nat}
    (hwf : wfB s rhs c = true) :
    deque_move_ctor rhs = (⟨rhs.start, rhs.tail, rhs.allocator⟩, ⟨0, 0, ⟨none⟩⟩)
    ∧ wfB s (deque_move_ctor rhs).1 c = true
    ∧ wfB s (deque_move_ctor rhs).2 [] = true
    ∧ IsEmpty (deque_move_ctor rhs).2 = true
    ∧ chainData s c = chainData s c := by
  obtain ⟨hrep, htr, hbnd, hnd, hpos⟩ := wfB_iff.mp hwf
  refine ⟨rfl, hwf, ?_, rfl, rfl⟩
  rw [wfB_iff]
  refine ⟨?_, by simp [trackedB], by simp, by simp, hpos⟩
  rw [segB_nil_iff]
  exact ⟨rfl, rfl⟩

theorem deque_move_assign_spec {s : State} {dst rhs : deque_t}
    {cd cr : List Nat} {sidd fuel : Nat}
    (hwfd : wfB s dst cd = true) (hwfr : wfB s rhs cr = true)
    (hsidd : dst.allocator = ⟨some sidd⟩)
    (hdis : ∀ a ∈ cr, a ∉ cd) (hfuel : cd.length < fuel) :
    ∃ s', deque_move_assign s dst rhs fuel
        = .ok (s', ⟨rhs.start, rhs.tail, rhs.allocator⟩, ⟨0, 0, ⟨none⟩⟩)
      ∧ wfB s' ⟨rhs.start, rhs.tail, rhs.allocator⟩ cr = true
      ∧ chainData s' cr = chainData s cr
      ∧ wfB s' ⟨0, 0, ⟨none⟩⟩ [] = true
      ∧ IsEmpty (⟨0, 0, ⟨none⟩⟩ : deque_t) = true
      ∧ (∀ q ∈ cd, lookupN s'.blocks q = none)
      ∧ s'.nextAddr = s.nextAddr ∧ s'.budget = s.budget := by
  obtain ⟨hrepd, htrd, hbndd, hndd, hpos⟩ := wfB_iff.mp hwfd
  obtain ⟨s1, hrun1, hin1, hout1, hinr1, houtr1, hna1, hbud1, hstr1, hstr21⟩ :=
    FreeList_spec hrepd
      (fun a ha => by
        rw [contains_iff_mem]
        exact (trackedB_some (by rw [hsidd])).mp htrd a ha)
      (fun a ha => (hbndd a ha).1) hndd hfuel
  have hfr1 : Frames s s1 cd := FreeList_frames hout1 hna1 hstr1 hstr21
  obtain ⟨hwfr1, hchr1⟩ := wf_mono hwfr hfr1 hdis
  refine ⟨s1, ?_, ?_, hchr1, ?_, rfl, hin1, hna1, hbud1⟩
  · rw [deque_move_assign, hsidd]
    show (do
      let s1x ← FreeList s ⟨some sidd⟩ dst.start fuel
      Except.ok (s1x, (⟨rhs.start, rhs.tail, rhs.allocator⟩ : deque_t),
        (⟨0, 0, ⟨none⟩⟩ : deque_t))) = _
    rw [hrun1]
    rfl
  · show wfB s1 ⟨rhs.start, rhs.tail, rhs.allocator⟩ cr = true
    exact hwfr1
  · rw [wfB_iff]
    refine ⟨?_, by simp [trackedB], by simp, by simp, ?_⟩
    · rw [segB_nil_iff]
      exact ⟨rfl, rfl⟩
    · rw [hna1]
      exact hpos

/-!  Specification of iteration. -/

theorem iterTraverse_spec {s : State} {c : List Nat} :
    ∀ {p pr lastc : Nat} {fuel : Nat}, segB s pr p c 0 lastc = true →
    (∀ a ∈ c, 0 < a) → c.length < fuel →
    iterTraverse s ⟨p⟩ fuel = .ok (chainData s c) := by
  induction c with
  | nil =>
    intro p pr lastc fuel hseg hpos hfuel
    obtain ⟨hp, _⟩ := segB_nil_iff.mp hseg
    cases fuel with
    | zero => simp at hfuel
    | succ fuel =>
      rw [iterTraverse, if_pos hp]
      rfl
  | cons a rest ih =>
    intro p pr lastc fuel hseg hpos hfuel
    simp only [List.length_cons] at hfuel
    obtain ⟨hp, n, hn, hnprev, hseg'⟩ := segB_cons_iff.mp hseg
    subst hp
    have hppos : 0 < p := hpos p (by simp)
    cases fuel with
    | zero => simp at hfuel
    | succ fuel =>
      rw [iterTraverse, if_neg (Nat.pos_iff_ne_zero.mp hppos)]
      show (do
        let v ← iter_deref s ⟨p⟩
        let it2 ← iter_inc s ⟨p⟩
        let rest' ← iterTraverse s it2 fuel
        Except.ok (v :: rest')) = _
      rw [show iter_deref s ⟨p⟩ = .ok n.data from by
        rw [iter_deref, if_neg (Nat.pos_iff_ne_zero.mp hppos),
          readNode_ok hn]
        rfl]
      show (do
        let it2 ← iter_inc s ⟨p⟩
        let rest' ← iterTraverse s it2 fuel
        Except.ok (n.data :: rest')) = _
      rw [show iter_inc s ⟨p⟩ = .ok ⟨n.next⟩ from by
        rw [iter_inc, if_neg (Nat.pos_iff_ne_zero.mp hppos),
          readNode_ok hn]
        rfl]
      show (do
        let rest' ← iterTraverse s ⟨n.next⟩ fuel
        Except.ok (n.data :: rest')) = _
      rw [ih hseg' (fun x hx => hpos x (by simp [hx])) (by omega)]
      show Except.ok (n.data :: chainData s rest) = _
      rw [show chainData s (p :: rest) = dataAt s p :: chainData s rest
        from rfl, show dataAt s p = n.data from by rw [dataAt, hn]]

/-!  Failure equations for the pushes and pops, and the generic mutation
step used to express copy-independence. -/

theorem sa_alloc_oom {s : State} {sid : Nat} {n : node_t}
    (hb : s.budget = 0) : sa_alloc s ⟨some sid⟩ n = .error .ub := by
  simp [sa_alloc, stupid_alloc, mallocB, hb]

theorem PushBack_oom {s : State} {d : deque_t} {sid : Nat} {v : Int}
    (hb : s.budget = 0) (hsid : d.allocator = ⟨some sid⟩) :
    PushBack s d v = .error .ub := by
  rw [PushBack, hsid, sa_alloc_oom hb]
  rfl

theorem PushFront_oom {s : State} {d : deque_t} {sid : Nat} {v : Int}
    (hb : s.budget = 0) (hsid : d.allocator = ⟨some sid⟩) :
    PushFront s d v = .error .ub := by
  rw [PushFront, hsid, sa_alloc_oom hb]
  rfl

theorem PopBack_empty {s : State} {d : deque_t} (h : d.tail = 0) :
    PopBack s d = .error .emptyList := by
  rw [PopBack]
  show (if d.tail = 0 then _ else _) = _
  rw [if_pos h]

theorem PopFront_empty {s : State} {d : deque_t} (h : d.start = 0) :
    PopFront s d = .error .emptyList := by
  rw [PopFront]
  show (if d.start = 0 then _ else _) = _
  rw [if_pos h]

/-- A deque well formed over the empty chain has both ends null. -/
theorem wfB_nil_ends {s : State} {d : deque_t} (hwf : wfB s d [] = true) :
    d.start = 0 ∧ d.tail = 0 := by
  obtain ⟨hrep, _, _, _, _⟩ := wfB_iff.mp hwf
  obtain ⟨h1, h2⟩ := segB_nil_iff.mp hrep
  exact ⟨h1, h2.symm⟩

/-- A well-formed deque with a null head has the empty chain. -/
theorem wfB_start0_nil {s : State} {d : deque_t} {c : List Nat}
    (hwf : wfB s d c = true) (h : d.start = 0) : c = [] := by
  obtain ⟨hrep, _, hbnd, _, _⟩ := wfB_iff.mp hwf
  cases c with
  | nil => rfl
  | cons a rest =>
    have := (segB_cons_iff.mp hrep).1
    have := (hbnd a (by simp)).1
    omega

/-- A well-formed deque with a null tail has the empty chain. -/
theorem wfB_tail0_nil {s : State} {d : deque_t} {c : List Nat}
    (hwf : wfB s d c = true) (h : d.tail = 0) : c = [] := by
  obtain ⟨hrep, _, hbnd, _, _⟩ := wfB_iff.mp hwf
  cases c with
  | nil => rfl
  | cons a rest =>
    have hmem : d.tail ∈ a :: rest := segB_exit_mem hrep (by simp)
    have := (hbnd _ hmem).1
    omega

/-- One client-visible mutation of a deque, used to state that mutating
one container never affects another. -/
inductive mut_op where
  | pushB (v : Int)
  | pushF (v : Int)
  | popB
  | popF

/-- Run one mutation, keeping only the resulting state and deque. -/
def applyMut (s : State) (d : deque_t) : mut_op → Except Err (State × deque_t)
  | .pushB v => PushBack s d v
  | .pushF v => PushFront s d v
  | .popB => (PopBack s d).map (fun r => (r.2.1, r.2.2))
  | .popF => (PopFront s d).map (fun r => (r.2.1, r.2.2))

/-- A successful mutation of a well-formed deque touches only that
deque's own chain and fresh blocks. -/
theorem applyMut_frames {s : State} {d : deque_t} {c : List Nat} {sid : Nat}
    {op : mut_op} {s' : State} {d' : deque_t}
    (hwf : wfB s d c = true) (hsid : d.allocator = ⟨some sid⟩)
    (hrun : applyMut s d op = .ok (s', d')) :
    Frames s s' c := by
  cases op with
  | pushB v =>
    by_cases hb : s.budget = 0
    · rw [show applyMut s d (.pushB v) = PushBack s d v from rfl,
        PushBack_oom hb hsid] at hrun
      cases hrun
    · obtain ⟨s'', hrun', _, _, hfr, _, _⟩ := PushBack_spec hwf hsid hb
      rw [show applyMut s d (.pushB v) = PushBack s d v from rfl,
        hrun'] at hrun
      simp only [Except.ok.injEq, Prod.mk.injEq] at hrun
      rw [← hrun.1]
      exact hfr
  | pushF v =>
    by_cases hb : s.budget = 0
    · rw [show applyMut s d (.pushF v) = PushFront s d v from rfl,
        PushFront_oom hb hsid] at hrun
      cases hrun
    · obtain ⟨s'', hrun', _, _, hfr, _, _⟩ := PushFront_spec hwf hsid hb
      rw [show applyMut s d (.pushF v) = PushFront s d v from rfl,
        hrun'] at hrun
      simp only [Except.ok.injEq, Prod.mk.injEq] at hrun
      rw [← hrun.1]
      exact hfr
  | popB =>
    rcases List.eq_nil_or_concat c with hc | ⟨rest, t, hc⟩
    · subst hc
      obtain ⟨_, htail⟩ := wfB_nil_ends hwf
      rw [show applyMut s d .popB = (PopBack s d).map (fun r => (r.2.1, r.2.2))
          from rfl, PopBack_empty htail] at hrun
      cases hrun
    · rw [List.concat_eq_append] at hc
      subst hc
      obtain ⟨s'', hrun', _, _, _, _, hfr, _, _⟩ := PopBack_spec hwf hsid
      rw [show applyMut s d .popB = (PopBack s d).map (fun r => (r.2.1, r.2.2))
          from rfl, hrun'] at hrun
      simp only [Except.map, Except.ok.injEq, Prod.mk.injEq] at hrun
      rw [← hrun.1]
      exact hfr
  | popF =>
    cases c with
    | nil =>
      obtain ⟨hstart, _⟩ := wfB_nil_ends hwf
      rw [show applyMut s d .popF = (PopFront s d).map (fun r => (r.2.1, r.2.2))
          from rfl, PopFront_empty hstart] at hrun
      cases hrun
    | cons a rest =>
      obtain ⟨s'', hrun', _, _, _, _, hfr, _, _⟩ := PopFront_spec hwf hsid
      rw [show applyMut s d .popF = (PopFront s d).map (fun r => (r.2.1, r.2.2))
          from rfl, hrun'] at hrun
      simp only [Except.map, Except.ok.injEq, Prod.mk.injEq] at hrun
      rw [← hrun.1]
      exact hfr

/-!  Concrete configurations used by the claim evaluations and witnesses. -/

/-- A fresh machine with two yet-unused strategies 0 and 1. -/
def exState : State := ⟨[], [], 1, 1000, [(0, ⟨[]⟩), (1, ⟨[]⟩)]⟩

/-- A deque freshly constructed on strategy 0. -/
def exDeque : deque_t := deque_new 0

/-- A machine holding a one-element deque (value 7 at address 1) built on
strategy 0. -/
def exS3 : State := ⟨[(1, 24)], [(1, ⟨0, 0, 7⟩)], 2, 1000, [(0, ⟨[1]⟩)]⟩

/-- The one-element deque living in exS3. -/
def exD3 : deque_t := ⟨1, 1, ⟨some 0⟩⟩

/-- exS3 with the system allocator exhausted. -/
def exS7 : State := ⟨[(1, 24)], [(1, ⟨0, 0, 7⟩)], 2, 0, [(0, ⟨[1]⟩)]⟩

/-- The one-element deque living in exS7. -/
def exD7 : deque_t := ⟨1, 1, ⟨some 0⟩⟩

/-- Push 7 on a fresh deque under strategy 0, then migrate it to
strategy 1 with ChangeAllocator. -/
def c1Run : Except Err (State × deque_t) := do
  let r ← PushBack exState exDeque 7
  ChangeAllocator r.1 r.2 1 10

/-- Push 5 on a fresh deque under strategy 0, then call ChangeAllocator
with the deque's own current strategy 0. -/
def c2Run : Except Err (State × deque_t) := do
  let r ← PushBack exState exDeque 5
  ChangeAllocator r.1 r.2 0 10

/-- A deque whose head pointer is nonnull but dangling satisfies the
representation predicate for no chain at all. -/
theorem repB_broken {s : State} {d : deque_t}
    (h0 : d.start ≠ 0) (h1 : lookupN s.blocks d.start = none) :
    ∀ c, repB s d c = false := by
  intro c
  cases c with
  | nil =>
    show segB s 0 d.start [] 0 d.tail = false
    simp [segB, h0]
  | cons a rest =>
    show segB s 0 d.start (a :: rest) 0 d.tail = false
    by_cases ha : d.start = a
    · rw [← ha]
      simp [segB, h1]
    · simp [segB, ha]

/-- C1 (code bug): the spec says ChangeAllocator(newStrategy) rebuilds the
nodes under the new strategy and then frees the old node sequence under
the old allocator, so that a tracking old strategy reports zero
outstanding blocks afterwards.  The source saves prevBegin and prevEnd
but never uses them: FreeList is called on the already overwritten start
field, i.e. on the new list, whose blocks the old strategy does not own.
Evaluating the code on a one-element deque migrated from strategy 0 to
strategy 1: the migrated deque holds the same value 7, but strategy 0
still tracks its block (one outstanding, not zero) and the old node's
memory is still allocated. -/
theorem claim_C1 :
    ∃ s' d', c1Run = .ok (s', d')
      ∧ (getStrat s'.strats 0).allocEls = [1]
      ∧ lookupN s'.raw 1 = some sizeof_node
      ∧ iterTraverse s' (deque_begin d') 10 = .ok [7]
      ∧ d'.allocator = ⟨some 1⟩
      ∧ (getStrat s'.strats 1).allocEls = [2] := by
  refine ⟨_, _, rfl, ?_, ?_, ?_, ?_, ?_⟩ <;> decide

/-- C2 (code bug): the spec's structural invariant (head null iff tail
null; the next-chain from head reaches tail with mutually consistent prev
links) is claimed for every deque reachable by construction, push, pop,
clear, copy, move and ChangeAllocator.  Because ChangeAllocator frees the
new list through the old allocator, calling it with the deque's own
current strategy genuinely frees every node of the rebuilt list: after
push 5 and ChangeAllocator with the same strategy 0 the resulting deque
has a nonnull dangling head, and no chain satisfies the representation
invariant. -/
theorem claim_C2 :
    ∃ s' d', c2Run = .ok (s', d')
      ∧ d'.start = 2 ∧ d'.tail = 2
      ∧ lookupN s'.blocks d'.start = none
      ∧ (∀ c, repB s' d' c = false) := by
  refine ⟨_, _, rfl, ?_, ?_, ?_, ?_⟩
  · decide
  · decide
  · decide
  · exact repB_broken (by decide) (by decide)

/-- C7 counterexample: with the system allocator exhausted, the reference
strategy's alloc does not report an out-of-memory condition: it returns
the NULL block and even appends it to its tracking list, and the push
that requested the memory fails by placement-construction at null, with
the strategy state already mutated rather than left as before the call. -/
theorem claim_C7_counterexample :
    (stupid_alloc exS7 0 sizeof_node).1 = 0
    ∧ (getStrat (stupid_alloc exS7 0 sizeof_node).2.strats 0).allocEls
        = [1, 0]
    ∧ PushBack exS7 exD7 5 = .error .ub := by decide

/-- C7 (amended): when the system allocator can satisfy the request,
stupid alloc returns a fresh nonnull block recorded with the requested
size and appends it to its tracking list; when it cannot, alloc reports
no out-of-memory condition - it returns the NULL block, still appends it
to the tracking list, and a deque push then fails by
placement-construction at null instead of leaving the container in its
pre-call state. -/
theorem claim_C7 (s : State) (d : deque_t) (sid : Nat) (nb : Nat) (v : Int)
    (hsid : d.allocator = ⟨some sid⟩) :
    (s.budget ≠ 0 →
        (stupid_alloc s sid nb).1 = s.nextAddr
      ∧ lookupN (stupid_alloc s sid nb).2.raw s.nextAddr = some nb
      ∧ (getStrat (stupid_alloc s sid nb).2.strats sid).allocEls
          = (getStrat s.strats sid).allocEls ++ [s.nextAddr])
  ∧ (s.budget = 0 →
        (stupid_alloc s sid nb).1 = 0
      ∧ (getStrat (stupid_alloc s sid nb).2.strats sid).allocEls
          = (getStrat s.strats sid).allocEls ++ [0]
      ∧ PushBack s d v = .error .ub
      ∧ PushFront s d v = .error .ub) := by
  constructor
  · intro hb
    refine ⟨?_, ?_, ?_⟩
    · simp [stupid_alloc, mallocB, hb]
    · show lookupN (stupid_alloc s sid nb).2.raw s.nextAddr = some nb
      simp only [stupid_alloc, mallocB, if_neg hb]
      exact lookupN_cons_self _ _ _
    · show (getStrat (updStrat _ sid _) sid).allocEls = _
      rw [getStrat_updStrat_self]
      simp [mallocB, hb]
  · intro hb
    refine ⟨?_, ?_, PushBack_oom hb hsid, PushFront_oom hb hsid⟩
    · simp [stupid_alloc, mallocB, hb]
    · show (getStrat (updStrat _ sid _) sid).allocEls = _
      rw [getStrat_updStrat_self]
      simp [mallocB, hb]

theorem claim_C7_witness :
    (stupid_alloc exState 0 sizeof_node).1 = exState.nextAddr
    ∧ PushBack exS7 exD7 5 = .error .ub :=
  ⟨((claim_C7 exState exDeque 0 sizeof_node 5 rfl).1 (by decide)).1,
   (((claim_C7 exS7 exD7 0 sizeof_node 5 rfl).2 (by decide)).2.2).1⟩

/-- Dealloc of an untracked pointer is the identity. -/
theorem stupid_dealloc_not_tracked {s : State} {sid p : Nat}
    (h : (getStrat s.strats sid).allocEls.contains p = false) :
    stupid_dealloc s sid p = s := by
  unfold stupid_dealloc
  rw [h]
  simp

/-- C8: stupid dealloc on a pointer the strategy does not currently track
- including one that was already deallocated - is a no-op leaving the
whole state (tracking list and heap) unchanged, and the function is total
so it never faults; on a tracked pointer it frees the block (both its
malloc record and any object in it disappear) and erases exactly that one
entry from the tracking list, leaving every other block, every other
strategy and the tracking of other pointers intact, so a second dealloc
of a once-tracked pointer is a no-op. -/
theorem claim_C8 (s : State) (sid : Nat) (p : Nat) :
    ((getStrat s.strats sid).allocEls.contains p = false →
        stupid_dealloc s sid p = s)
  ∧ ((getStrat s.strats sid).allocEls.contains p = true →
        lookupN (stupid_dealloc s sid p).raw p = none
      ∧ lookupN (stupid_dealloc s sid p).blocks p = none
      ∧ (getStrat (stupid_dealloc s sid p).strats sid).allocEls
          = (getStrat s.strats sid).allocEls.erase p
      ∧ ((getStrat (stupid_dealloc s sid p).strats sid).allocEls).length + 1
          = ((getStrat s.strats sid).allocEls).length
      ∧ (∀ q, q ≠ p →
            lookupN (stupid_dealloc s sid p).raw q = lookupN s.raw q
          ∧ lookupN (stupid_dealloc s sid p).blocks q = lookupN s.blocks q)
      ∧ (∀ sid', sid' ≠ sid →
            getStrat (stupid_dealloc s sid p).strats sid'
              = getStrat s.strats sid')
      ∧ ((getStrat s.strats sid).allocEls.count p = 1 →
            stupid_dealloc (stupid_dealloc s sid p) sid p
              = stupid_dealloc s sid p)) := by
  constructor
  · exact fun h => stupid_dealloc_not_tracked h
  · intro h
    have hres : stupid_dealloc s sid p = deallocResult s sid p := by
      simp only [stupid_dealloc, h, if_true, freeB, deallocResult]
    have hmem : p ∈ (getStrat s.strats sid).allocEls :=
      (contains_iff_mem _ _).mp h
    have he : (getStrat (deallocResult s sid p).strats sid).allocEls
        = (getStrat s.strats sid).allocEls.erase p :=
      congrArg stupid_strategy_t.allocEls (getStrat_updStrat_self _ _ _)
    refine ⟨?_, ?_, ?_, ?_, ?_, ?_, ?_⟩
    · rw [hres]
      exact lookupN_filter_self _ _
    · rw [hres]
      exact lookupN_filter_self _ _
    · rw [hres]
      exact he
    · rw [hres, he]
      rw [List.length_erase_of_mem hmem]
      have hpos : 0 < (getStrat s.strats sid).allocEls.length :=
        List.length_pos.mpr (List.ne_nil_of_mem hmem)
      omega
    · intro q hq
      rw [hres]
      exact ⟨lookupN_filter_ne _ _ _ hq, lookupN_filter_ne _ _ _ hq⟩
    · intro sid' h'
      rw [hres]
      exact getStrat_updStrat_ne _ _ _ _ h'
    · intro hcount
      have hcontains2 : (getStrat (stupid_dealloc s sid p).strats
          sid).allocEls.contains p = false := by
        rw [hres, he]
        apply Bool.eq_false_iff.mpr
        intro hc
        have hm := (contains_iff_mem _ _).mp hc
        have := List.count_erase_self p (getStrat s.strats sid).allocEls
        have hcp : 0 < ((getStrat s.strats sid).allocEls.erase p).count p :=
          List.count_pos_iff.mpr hm
        omega
      rw [stupid_dealloc_not_tracked hcontains2]

theorem claim_C8_witness :
    stupid_dealloc exState 0 5 = exState
    ∧ lookupN (stupid_dealloc exS3 0 1).raw 1 = none :=
  ⟨(claim_C8 exState 0 5).1 (by decide),
   ((claim_C8 exS3 0 1).2 (by decide)).1⟩

/-- Reading the head of a freed list inside CopyList is the error branch
of the embedding. -/
theorem CopyList_err {s : State} {al : single_allocator_t} {p : Nat}
    {fuel : Nat} (h0 : p ≠ 0) (h1 : lookupN s.blocks p = none) :
    CopyList s al p fuel = .error .ub := by
  rw [CopyList]
  show (if p = 0 then _ else _) = _
  rw [if_neg h0]
  show (do
    let src ← readNode s p
    let r ← sa_alloc s al src
    let b ← readNode r.2 p
    let lp ← CopyListLoop r.2 al b.next r.1 fuel
    let s3x ← setNext lp.1 lp.2 0
    Except.ok (s3x, r.1, lp.2)) = _
  rw [show readNode s p = .error .ub from by simp [readNode, h1]]
  rfl

/-- C10: self copy-assignment d = d on a non-empty deque first frees every
node of d under its own allocator (FreeList runs before the source is
read) and then runs CopyList on the begin pointer of the just-freed list,
so the very first read of the source dereferences deallocated memory and
the error branch of the embedding is reached; the copy-assignment
postcondition therefore holds only for distinct source and destination
objects (that case is claim C5). -/
theorem claim_C10 (s : State) (d : deque_t) (c : List Nat) (sid fuel : Nat)
    (hwf : wfB s d c = true) (hsid : d.allocator = ⟨some sid⟩)
    (hne : IsEmpty d = false) (hfuel : c.length < fuel) :
    deque_copy_assign s d d fuel = .error .ub := by
  obtain ⟨hrep, htr, hbnd, hnd, hpos⟩ := wfB_iff.mp hwf
  have hstart : d.start ≠ 0 := by
    intro hc
    rw [IsEmpty, hc] at hne
    simp at hne
  have hcne : c ≠ [] := by
    intro hc
    subst hc
    exact hstart (wfB_nil_ends hwf).1
  have hstartmem : d.start ∈ c := by
    cases c with
    | nil => exact absurd rfl hcne
    | cons a rest =>
      rw [(segB_cons_iff.mp hrep).1]
      simp
  obtain ⟨s1, hrun1, hin1, hout1, hinr1, houtr1, hna1, hbud1, hstr1, hstr21⟩ :=
    FreeList_spec hrep
      (fun a ha => by
        rw [contains_iff_mem]
        exact (trackedB_some (by rw [hsid])).mp htr a ha)
      (fun a ha => (hbnd a ha).1) hnd hfuel
  rw [deque_copy_assign, hsid]
  show (do
    let s1x ← FreeList s (⟨some sid⟩ : single_allocator_t) d.start fuel
    let r ← CopyList s1x (⟨some sid⟩ : single_allocator_t) d.start fuel
    Except.ok (r.1,
      (⟨r.2.1, r.2.2, (⟨some sid⟩ : single_allocator_t)⟩ : deque_t))) = _
  rw [hrun1]
  show (do
    let r ← CopyList s1 (⟨some sid⟩ : single_allocator_t) d.start fuel
    Except.ok (r.1,
      (⟨r.2.1, r.2.2, (⟨some sid⟩ : single_allocator_t)⟩ : deque_t))) = _
  rw [CopyList_err hstart (hin1 d.start hstartmem)]
  rfl

theorem claim_C10_witness :
    deque_copy_assign exS3 exD3 exD3 10 = .error .ub :=
  claim_C10 exS3 exD3 [1] 0 10 (by decide) rfl (by decide) (by decide)

/-- C3: PopBack and PopFront on an empty deque (both ends null) report the
empty-list error; on a nonempty deque PopBack returns the value of the
tail node, frees that node and retargets the tail to its predecessor,
PopFront symmetrically returns the head value, frees the head node and
retargets the head to its successor, the remaining elements are unchanged
and the structural invariant is preserved; both ends become null when the
removed node was the only one. -/
theorem claim_C3 (s : State) (d : deque_t) (c : List Nat) (sid : Nat)
    (hwf : wfB s d c = true) (hsid : d.allocator = ⟨some sid⟩) :
    (IsEmpty d = true →
        PopBack s d = .error .emptyList ∧ PopFront s d = .error .emptyList)
  ∧ (∀ rest t, c = rest ++ [t] →
      ∃ s', PopBack s d
          = .ok ((chainData s c).getLastD 0, s',
              ⟨if rest = [] then 0 else d.start, rest.getLastD 0,
               d.allocator⟩)
        ∧ wfB s' ⟨if rest = [] then 0 else d.start, rest.getLastD 0,
            d.allocator⟩ rest = true
        ∧ chainData s' rest = chainData s rest
        ∧ lookupN s'.blocks t = none ∧ lookupN s'.raw t = none
        ∧ (rest = [] →
            (if rest = [] then 0 else d.start) = 0 ∧ rest.getLastD 0 = 0))
  ∧ (∀ a rest, c = a :: rest →
      ∃ s', PopFront s d
          = .ok ((chainData s c).headD 0, s',
              ⟨rest.headD 0, if rest = [] then 0 else d.tail, d.allocator⟩)
        ∧ wfB s' ⟨rest.headD 0, if rest = [] then 0 else d.tail,
            d.allocator⟩ rest = true
        ∧ chainData s' rest = chainData s rest
        ∧ lookupN s'.blocks a = none ∧ lookupN s'.raw a = none
        ∧ (rest = [] →
            rest.headD 0 = 0 ∧ (if rest = [] then 0 else d.tail) = 0)) := by
  refine ⟨?_, ?_, ?_⟩
  · intro h
    have hstart : d.start = 0 := by
      rw [IsEmpty] at h
      exact eq_of_beq h
    have hnil : c = [] := wfB_start0_nil hwf hstart
    subst hnil
    have htail : d.tail = 0 := (wfB_nil_ends hwf).2
    exact ⟨PopBack_empty htail, PopFront_empty hstart⟩
  · intro rest t hc
    subst hc
    obtain ⟨s', hrun, hwf', hcd, hbl, hraw, _⟩ := PopBack_spec hwf hsid
    have hval : (chainData s (rest ++ [t])).getLastD 0 = dataAt s t := by
      simp [chainData]
    refine ⟨s', ?_, hwf', hcd, hbl, hraw, ?_⟩
    · rw [hval]
      exact hrun
    · intro h
      subst h
      simp
  · intro a rest hc
    subst hc
    obtain ⟨s', hrun, hwf', hcd, hbl, hraw, _⟩ := PopFront_spec hwf hsid
    have hval : (chainData s (a :: rest)).headD 0 = dataAt s a := rfl
    refine ⟨s', ?_, hwf', hcd, hbl, hraw, ?_⟩
    · rw [hval]
      exact hrun
    · intro h
      subst h
      simp

theorem claim_C3_witness :
    PopBack exState exDeque = .error .emptyList
    ∧ PopFront exState exDeque = .error .emptyList :=
  (claim_C3 exState exDeque [] 0 (by decide) rfl).1 (by decide)

/-- The mixed push scenario: push 3 and 4 at the back, 2 and 1 at the
front, then observe the deque front to back. -/
def c4Run1 : Except Err (List Int) := do
  let r1 ← PushBack exState exDeque 3
  let r2 ← PushBack r1.1 r1.2 4
  let r3 ← PushFront r2.1 r2.2 2
  let r4 ← PushFront r3.1 r3.2 1
  iterTraverse r4.1 (deque_begin r4.2) 10

/-- The same scenario continued by one PopFront and one PopBack, returning
both popped values and the remaining contents. -/
def c4Run2 : Except Err (Int × Int × List Int) := do
  let r1 ← PushBack exState exDeque 3
  let r2 ← PushBack r1.1 r1.2 4
  let r3 ← PushFront r2.1 r2.2 2
  let r4 ← PushFront r3.1 r3.2 1
  let p1 ← PopFront r4.1 r4.2
  let p2 ← PopBack p1.2.1 p1.2.2
  let rem ← iterTraverse p2.2.1 (deque_begin p2.2.2) 10
  .ok (p1.1, p2.1, rem)

/-- C4: the deque implements double-ended sequence semantics on its
abstract contents: PushBack appends the value at the back, PushFront
prepends it at the front, PopBack returns and removes the last element,
PopFront returns and removes the first, and front-to-back iteration
observes exactly the abstract sequence; in the mixed scenario pushing 3,4
at the back and 2,1 at the front yields [1,2,3,4], after which PopFront
returns 1 and PopBack returns 4, leaving [2,3]. -/
theorem claim_C4 (s : State) (d : deque_t) (c : List Nat) (sid : Nat)
    (hwf : wfB s d c = true) (hsid : d.allocator = ⟨some sid⟩) :
    (∀ v, s.budget ≠ 0 → ∃ s' d', PushBack s d v = .ok (s', d')
        ∧ ∃ c', wfB s' d' c' = true
          ∧ chainData s' c' = chainData s c ++ [v])
  ∧ (∀ v, s.budget ≠ 0 → ∃ s' d', PushFront s d v = .ok (s', d')
        ∧ ∃ c', wfB s' d' c' = true
          ∧ chainData s' c' = v :: chainData s c)
  ∧ (c ≠ [] → ∃ s' d', PopBack s d
        = .ok ((chainData s c).getLastD 0, s', d')
        ∧ ∃ c', wfB s' d' c' = true
          ∧ chainData s' c' = (chainData s c).dropLast)
  ∧ (c ≠ [] → ∃ s' d', PopFront s d
        = .ok ((chainData s c).headD 0, s', d')
        ∧ ∃ c', wfB s' d' c' = true
          ∧ chainData s' c' = (chainData s c).tail)
  ∧ c4Run1 = .ok [1, 2, 3, 4]
  ∧ c4Run2 = .ok (1, 4, [2, 3]) := by
  refine ⟨?_, ?_, ?_, ?_, by decide, by decide⟩
  · intro v hb
    obtain ⟨s', hrun, hwf', hcd, _⟩ := PushBack_spec hwf hsid hb
    exact ⟨s', _, hrun, c ++ [s.nextAddr], hwf', hcd⟩
  · intro v hb
    obtain ⟨s', hrun, hwf', hcd, _⟩ := PushFront_spec hwf hsid hb
    exact ⟨s', _, hrun, s.nextAddr :: c, hwf', hcd⟩
  · intro hne
    rcases List.eq_nil_or_concat c with h | ⟨rest, t, hc⟩
    · exact absurd h hne
    rw [List.concat_eq_append] at hc
    subst hc
    obtain ⟨s', hrun, hwf', hcd, _⟩ := PopBack_spec hwf hsid
    have hval : (chainData s (rest ++ [t])).getLastD 0 = dataAt s t := by
      simp [chainData]
    have hdrop : (chainData s (rest ++ [t])).dropLast = chainData s rest := by
      simp [chainData]
    refine ⟨s', _, ?_, rest, hwf', ?_⟩
    · rw [hval]
      exact hrun
    · rw [hdrop]
      exact hcd
  · intro hne
    cases c with
    | nil => exact absurd rfl hne
    | cons a rest =>
      obtain ⟨s', hrun, hwf', hcd, _⟩ := PopFront_spec hwf hsid
      refine ⟨s', _, hrun, rest, hwf', hcd⟩

theorem claim_C4_witness :
    ∃ s' d', PushBack exS3 exD3 9 = .ok (s', d')
      ∧ ∃ c', wfB s' d' c' = true
        ∧ chainData s' c' = chainData exS3 [1] ++ [9] :=
  (claim_C4 exS3 exD3 [1] 0 (by decide) rfl).1 9 (by decide)

/-- C9: every iterator operation on the end iterator (the null node)
reports the end-iterator error; on an iterator positioned at any node of
a well-formed chain, dereference returns that node's value, assignment
through the iterator stores a new value there and touches no other node,
prefix increment moves to the node's successor and postfix increment
returns the old position before moving; iterating from begin() to end()
visits exactly the chain's values front to back. -/
theorem claim_C9 (s : State) (d : deque_t) (c : List Nat)
    (hwf : wfB s d c = true) :
    (iter_deref s (deque_end d) = .error .endIterator
     ∧ iter_inc s (deque_end d) = .error .endIterator
     ∧ iter_inc_post s (deque_end d) = .error .endIterator
     ∧ ∀ v, iter_set s (deque_end d) v = .error .endIterator)
  ∧ (∀ a ∈ c, ∃ n, lookupN s.blocks a = some n
      ∧ iter_deref s ⟨a⟩ = .ok n.data
      ∧ iter_inc s ⟨a⟩ = .ok ⟨n.next⟩
      ∧ iter_inc_post s ⟨a⟩ = .ok (⟨a⟩, ⟨n.next⟩)
      ∧ ∀ v, ∃ s2, iter_set s ⟨a⟩ v = .ok s2 ∧ dataAt s2 a = v
          ∧ (∀ q, q ≠ a → lookupN s2.blocks q = lookupN s.blocks q))
  ∧ (∀ fuel, c.length < fuel →
      iterTraverse s (deque_begin d) fuel = .ok (chainData s c)) := by
  obtain ⟨hrep, htr, hbnd, hnd, hpos⟩ := wfB_iff.mp hwf
  refine ⟨⟨rfl, rfl, rfl, fun v => rfl⟩, ?_, ?_⟩
  · intro a ha
    obtain ⟨n, hl⟩ := segB_mem_lookup hrep ha
    have ha0 : a ≠ 0 := Nat.pos_iff_ne_zero.mp (hbnd a ha).1
    refine ⟨n, hl, ?_, ?_, ?_, ?_⟩
    · show (if a = 0 then _ else _) = _
      rw [if_neg ha0]
      show (do
        let n2 ← readNode s a
        Except.ok n2.data) = _
      rw [readNode_ok hl]
      rfl
    · show (if a = 0 then _ else _) = _
      rw [if_neg ha0]
      show (do
        let n2 ← readNode s a
        Except.ok (⟨n2.next⟩ : iterator_t)) = _
      rw [readNode_ok hl]
      rfl
    · show (if a = 0 then _ else _) = _
      rw [if_neg ha0]
      show (do
        let n2 ← readNode s a
        Except.ok ((⟨a⟩ : iterator_t), (⟨n2.next⟩ : iterator_t))) = _
      rw [readNode_ok hl]
      rfl
    · intro v
      refine ⟨{ s with blocks := updN s.blocks a { n with data := v } },
        ?_, ?_, ?_⟩
      · show (if a = 0 then _ else _) = _
        rw [if_neg ha0]
        show (do
          let n2 ← readNode s a
          writeNode s a { n2 with data := v }) = _
        rw [readNode_ok hl]
        show writeNode s a { n with data := v } = _
        rw [writeNode, hl]
      · show dataAt _ a = v
        rw [dataAt, lookupN_updN_self s.blocks a _ n hl]
      · intro q hq
        exact lookupN_updN_ne s.blocks a _ q hq
  · intro fuel hfuel
    exact iterTraverse_spec hrep (fun a ha => (hbnd a ha).1) hfuel

theorem claim_C9_witness :
    iter_deref exS3 (deque_end exD3) = .error .endIterator
    ∧ iterTraverse exS3 (deque_begin exD3) 5 = .ok (chainData exS3 [1]) :=
  ⟨((claim_C9 exS3 exD3 [1] (by decide)).1).1,
   (claim_C9 exS3 exD3 [1] (by decide)).2.2 5 (by decide)⟩

/-- C5: copying a deque - by copy constructor, by the strategy-taking
constructor, by copy assignment onto a distinct deque, or by Copy with an
explicit strategy - produces a structurally independent deque with its
own newly allocated nodes (disjoint from the source's), holding the same
values in the same order, under the requested allocator (the source's one
for plain copies); the source is left intact, an empty source yields an
empty copy with both ends null, a one-element source yields a copy whose
head and tail name the same single fresh node, and afterwards mutating
one deque leaves any disjoint well-formed deque's structure and contents
untouched. -/
theorem claim_C5 (s : State) (lhs : deque_t) (c : List Nat) (sid : Nat)
    (hwf : wfB s lhs c = true) (hsid : lhs.allocator = ⟨some sid⟩) :
    (∀ fuel, c.length ≤ s.budget → c.length < fuel →
      ∃ s' d', deque_copy_ctor s lhs fuel = .ok (s', d')
        ∧ d'.allocator = lhs.allocator
        ∧ ∃ c', wfB s' d' c' = true
          ∧ chainData s' c' = chainData s c
          ∧ c'.length = c.length
          ∧ (∀ x ∈ c', x ∉ c)
          ∧ wfB s' lhs c = true
          ∧ chainData s' c = chainData s c
          ∧ (c = [] → d'.start = 0 ∧ d'.tail = 0)
          ∧ (c.length = 1 → d'.start = d'.tail ∧ d'.start ≠ 0))
  ∧ (∀ tid fuel, c.length ≤ s.budget → c.length < fuel →
      ∃ s' d', deque_copy_ctor_strat s lhs tid fuel = .ok (s', d')
        ∧ d'.allocator = ⟨some tid⟩
        ∧ ∃ c', wfB s' d' c' = true
          ∧ chainData s' c' = chainData s c
          ∧ (∀ x ∈ c', x ∉ c)
          ∧ wfB s' lhs c = true
          ∧ chainData s' c = chainData s c)
  ∧ (∀ dst cd sidd fuel, wfB s dst cd = true →
      dst.allocator = ⟨some sidd⟩ → (∀ a ∈ c, a ∉ cd) →
      c.length ≤ s.budget → cd.length < fuel → c.length < fuel →
      ∃ s' d', deque_copy_assign s dst lhs fuel = .ok (s', d')
        ∧ d'.allocator = lhs.allocator
        ∧ ∃ c', wfB s' d' c' = true
          ∧ chainData s' c' = chainData s c
          ∧ (∀ x ∈ c', x ∉ c)
          ∧ wfB s' lhs c = true
          ∧ chainData s' c = chainData s c
          ∧ (∀ q ∈ cd, lookupN s'.blocks q = none))
  ∧ (∀ dst cd sidd tid fuel, wfB s dst cd = true →
      dst.allocator = ⟨some sidd⟩ → (∀ a ∈ c, a ∉ cd) →
      c.length ≤ s.budget → cd.length < fuel → c.length < fuel →
      ∃ s' d', deque_Copy s dst lhs tid fuel = .ok (s', d')
        ∧ d'.allocator = ⟨some tid⟩
        ∧ ∃ c', wfB s' d' c' = true
          ∧ chainData s' c' = chainData s c
          ∧ (∀ x ∈ c', x ∉ c)
          ∧ wfB s' lhs c = true
          ∧ chainData s' c = chainData s c
          ∧ (∀ q ∈ cd, lookupN s'.blocks q = none))
  ∧ (∀ d₂ c₂ op s' d₁', wfB s d₂ c₂ = true → (∀ a ∈ c₂, a ∉ c) →
      applyMut s lhs op = .ok (s', d₁') →
      wfB s' d₂ c₂ = true ∧ chainData s' c₂ = chainData s c₂) := by
  obtain ⟨hrepc, htrc, hbndc, hndc, hposc⟩ := wfB_iff.mp hwf
  refine ⟨?_, ?_, ?_, ?_, ?_⟩
  · intro fuel hbud hfuel
    obtain ⟨s', hrun, hwf', hch, hfr, hna, hbd⟩ :=
      deque_copy_ctor_spec hwf hsid hbud hfuel
    have hdisnil : ∀ a ∈ c, a ∉ ([] : List Nat) := by simp
    obtain ⟨hwfl, hchl⟩ := wf_mono hwf hfr hdisnil
    refine ⟨s', _, hrun, rfl, freshChain s.nextAddr c.length, hwf', hch,
      freshChain_length _ _, ?_, hwfl, hchl, ?_, ?_⟩
    · intro x hx hxc
      have h1 := freshChain_mem.mp hx
      have h2 := (hbndc x hxc).2
      omega
    · intro h
      subst h
      exact ⟨rfl, rfl⟩
    · intro h1
      rw [h1]
      exact ⟨rfl, Nat.pos_iff_ne_zero.mp hposc⟩
  · intro tid fuel hbud hfuel
    obtain ⟨s', hrun, hwf', hch, hfr, hna, hbd⟩ :=
      @deque_copy_ctor_strat_spec s lhs c tid fuel hwf hbud hfuel
    have hdisnil : ∀ a ∈ c, a ∉ ([] : List Nat) := by simp
    obtain ⟨hwfl, hchl⟩ := wf_mono hwf hfr hdisnil
    refine ⟨s', _, hrun, rfl, freshChain s.nextAddr c.length, hwf', hch,
      ?_, hwfl, hchl⟩
    intro x hx hxc
    have h1 := freshChain_mem.mp hx
    have h2 := (hbndc x hxc).2
    omega
  · intro dst cd sidd fuel hwfd hsidd hdis hbud hfueld hfuell
    obtain ⟨s', hrun, hwf', hch, hwfl, hchl, hfreed, hna⟩ :=
      deque_copy_assign_spec hwfd hwf hsidd hsid hdis hbud hfueld hfuell
    refine ⟨s', _, hrun, rfl, freshChain s.nextAddr c.length, hwf', hch,
      ?_, hwfl, hchl, hfreed⟩
    intro x hx hxc
    have h1 := freshChain_mem.mp hx
    have h2 := (hbndc x hxc).2
    omega
  · intro dst cd sidd tid fuel hwfd hsidd hdis hbud hfueld hfuell
    obtain ⟨s', hrun, hwf', hch, hwfl, hchl, hfreed, hna⟩ :=
      @deque_Copy_spec s dst lhs cd c sidd tid fuel
        hwfd hwf hsidd hdis hbud hfueld hfuell
    refine ⟨s', _, hrun, rfl, freshChain s.nextAddr c.length, hwf', hch,
      ?_, hwfl, hchl, hfreed⟩
    intro x hx hxc
    have h1 := freshChain_mem.mp hx
    have h2 := (hbndc x hxc).2
    omega
  · intro d₂ c₂ op s' d₁' hwf2 hdis2 hrun
    exact wf_mono hwf2 (applyMut_frames hwf hsid hrun) hdis2

theorem claim_C5_witness :
    ∃ s' d', deque_copy_ctor exS3 exD3 5 = .ok (s', d')
      ∧ d'.allocator = exD3.allocator := by
  obtain ⟨s', d', hrun, hal, _⟩ :=
    (claim_C5 exS3 exD3 [1] 0 (by decide) rfl).1 5 (by decide) (by decide)
  exact ⟨s', d', hrun, hal⟩

/-- C6: the move constructor transfers the source's head, tail and
allocator handle to the destination without touching the heap (it is a
pure pointer swap, so the destination represents exactly the chain the
source did) and leaves the moved-from deque empty with both ends null and
a null allocator handle, owning no node; move assignment first frees the
destination's own nodes, then performs the same transfer, allocating
nothing (the allocation budget is unchanged) and leaving the moved-from
deque empty. -/
theorem claim_C6 (s : State) (rhs : deque_t) (c : List Nat)
    (hwf : wfB s rhs c = true) :
    ((deque_move_ctor rhs).1.start = rhs.start
     ∧ (deque_move_ctor rhs).1.tail = rhs.tail
     ∧ (deque_move_ctor rhs).1.allocator = rhs.allocator
     ∧ wfB s (deque_move_ctor rhs).1 c = true
     ∧ (deque_move_ctor rhs).2.start = 0
     ∧ (deque_move_ctor rhs).2.tail = 0
     ∧ (deque_move_ctor rhs).2.allocator = ⟨none⟩
     ∧ IsEmpty (deque_move_ctor rhs).2 = true
     ∧ wfB s (deque_move_ctor rhs).2 [] = true)
  ∧ (∀ dst cd sidd fuel, wfB s dst cd = true →
      dst.allocator = ⟨some sidd⟩ → (∀ a ∈ c, a ∉ cd) →
      cd.length < fuel →
      ∃ s' dst' rhs', deque_move_assign s dst rhs fuel
          = .ok (s', dst', rhs')
        ∧ dst'.start = rhs.start ∧ dst'.tail = rhs.tail
        ∧ dst'.allocator = rhs.allocator
        ∧ wfB s' dst' c = true
        ∧ chainData s' c = chainData s c
        ∧ IsEmpty rhs' = true
        ∧ wfB s' rhs' [] = true
        ∧ s'.nextAddr = s.nextAddr ∧ s'.budget = s.budget) := by
  constructor
  · obtain ⟨heq, hwf1, hwf2, hemp, _⟩ := deque_move_ctor_spec hwf
    exact ⟨rfl, rfl, rfl, hwf1, rfl, rfl, rfl, hemp, hwf2⟩
  · intro dst cd sidd fuel hwfd hsidd hdis hfuel
    obtain ⟨s', hrun, hwf', hch, hwfe, hemp, hfreed, hna, hbud⟩ :=
      deque_move_assign_spec hwfd hwf hsidd hdis hfuel
    exact ⟨s', _, _, hrun, rfl, rfl, rfl, hwf', hch, rfl, hwfe, hna, hbud⟩

theorem claim_C6_witness :
    IsEmpty (deque_move_ctor exD3).2 = true
    ∧ wfB exS3 (deque_move_ctor exD3).1 [1] = true :=
  ⟨((claim_C6 exS3 exD3 [1] (by decide)).1).2.2.2.2.2.2.2.1,
   ((claim_C6 exS3 exD3 [1] (by decide)).1).2.2.2.1⟩

end CppDeque
